import Mathlib

set_option maxRecDepth 100000

/-!
Verification development for the StockScreener data-synchronization engine
(`backend/app`): market calendar, providers, bulk backfill with checkpoints
and retry queue, daily delta sync, on-demand read path, and the fundamentals
rotation updater.

The Python source is shallowly embedded: dates are proleptic-Gregorian
records, the database is explicit state (lists of rows), provider calls are
oracle parameters, exceptions are `Except`, and float-valued OHLCV payloads
are carried as integers (no claim computes with them; they are only moved
and compared).
-/

namespace StockScreener

/-! ## Dates (proleptic Gregorian calendar)

Models Python `datetime.date` values as (year, month, day) records with
unbounded years.  `dayNum` is the rata-die day number (0001-01-01 ↦ 1), used
for day arithmetic and weekday computation; Python `date.weekday()` is
Monday = 0 .. Sunday = 6. -/

/-- Gregorian leap-year test (`calendar.isleap`). -/
def isLeap (y : Int) : Bool := y % 4 == 0 && (y % 100 != 0 || y % 400 == 0)

/-- 1 on leap years, 0 otherwise. -/
def leapN (y : Int) : Nat := if isLeap y then 1 else 0

/-- Number of days of month `m` (1..12) of year `y`. -/
def monthLen (y : Int) (m : Nat) : Nat :=
  match m with
  | 1 => 31
  | 2 => 28 + leapN y
  | 3 => 31
  | 4 => 30
  | 5 => 31
  | 6 => 30
  | 7 => 31
  | 8 => 31
  | 9 => 30
  | 10 => 31
  | 11 => 30
  | 12 => 31
  | _ => 0

/-- Number of days of year `y` strictly before month `m`. -/
def daysBefore (y : Int) (m : Nat) : Nat :=
  (match m with
   | 1 => 0
   | 2 => 31
   | 3 => 59
   | 4 => 90
   | 5 => 120
   | 6 => 151
   | 7 => 181
   | 8 => 212
   | 9 => 243
   | 10 => 273
   | 11 => 304
   | 12 => 334
   | _ => 365) + (if 3 ≤ m then leapN y else 0)

/-- A calendar date, as carried by Python `datetime.date`. -/
structure Date where
  year : Int
  month : Nat
  day : Nat
deriving DecidableEq, Repr

/-- A structurally valid Gregorian date. -/
def Date.Valid (x : Date) : Prop :=
  1 ≤ x.month ∧ x.month ≤ 12 ∧ 1 ≤ x.day ∧ x.day ≤ monthLen x.year x.month

instance (x : Date) : Decidable x.Valid := by
  unfold Date.Valid; infer_instance

/-- Rata-die day number of a date: 0001-01-01 has day number 1. -/
def dayNum (x : Date) : Int :=
  365 * (x.year - 1) + (x.year - 1) / 4 - (x.year - 1) / 100 + (x.year - 1) / 400
    + (daysBefore x.year x.month : Int) + x.day

/-- Python `date.weekday()`: Monday = 0 .. Sunday = 6. -/
def weekday (x : Date) : Int := (dayNum x - 1) % 7

/-- The previous calendar day (Python `d - timedelta(days=1)`). -/
def predDate (x : Date) : Date :=
  if 1 < x.day then ⟨x.year, x.month, x.day - 1⟩
  else if 1 < x.month then ⟨x.year, x.month - 1, monthLen x.year (x.month - 1)⟩
  else ⟨x.year - 1, 12, 31⟩

/-- The next calendar day (Python `d + timedelta(days=1)`). -/
def succDate (x : Date) : Date :=
  if x.day < monthLen x.year x.month then ⟨x.year, x.month, x.day + 1⟩
  else if x.month < 12 then ⟨x.year, x.month + 1, 1⟩
  else ⟨x.year + 1, 1, 1⟩

/-- Python `d - timedelta(days=k)`. -/
def subDays (x : Date) (k : Nat) : Date := predDate^[k] x

/-- Python `d + timedelta(days=k)`. -/
def addDays (x : Date) (k : Nat) : Date := succDate^[k] x

/-! ## Market calendar (`app/utils/market_calendar.py`)

`USMarketCalendar` defines ten pandas `Holiday` rules.  Each rule is embedded
as a function from a year to the observed holiday date, following the
`dateutil` semantics pandas applies: `nearest_workday` moves a Saturday to
Friday and a Sunday to Monday; `DateOffset(weekday=w, weeks=k)` adds `7*k`
days and then rolls forward to the next date with weekday `w` (staying put
when already on `w`); `pd.Easter()` lands on the Western Easter Sunday of the
year, computed by `dateutil.easter`. -/

/-- Component `g` of the dateutil Western Easter computus (`y % 19`). -/
def easterG (y : Int) : Int := y % 19

/-- Component `c` of the computus (`y // 100`). -/
def easterC (y : Int) : Int := y / 100

/-- Component `h` of the computus. -/
def easterH (y : Int) : Int :=
  (easterC y - easterC y / 4 - (8 * easterC y + 13) / 25 + 19 * easterG y + 15) % 30

/-- Component `i` of the computus. -/
def easterI (y : Int) : Int :=
  easterH y - (easterH y / 28)
    * (1 - (easterH y / 28) * (29 / (easterH y + 1)) * ((21 - easterG y) / 11))

/-- Component `j` of the computus. -/
def easterJ (y : Int) : Int :=
  (y + y / 4 + easterI y + 2 - easterC y + easterC y / 4) % 7

/-- Component `p = i - j` of the computus (method 3 has `e = 0`). -/
def easterP (y : Int) : Int := easterI y - easterJ y

/-- Day-of-month of Easter Sunday. -/
def easterDay (y : Int) : Int := 1 + (easterP y + 27 + (easterP y + 6) / 40) % 31

/-- Month of Easter Sunday (3 or 4). -/
def easterMonth (y : Int) : Int := 3 + (easterP y + 26) / 30

/-- Western Easter Sunday of year `y` (`dateutil.easter.easter`). -/
def easterDate (y : Int) : Date := ⟨y, (easterMonth y).toNat, (easterDay y).toNat⟩

/-- Pandas `nearest_workday` observance: Saturday ↦ Friday, Sunday ↦ Monday. -/
def nearest_workday (x : Date) : Date :=
  if weekday x = 5 then predDate x
  else if weekday x = 6 then succDate x
  else x

/-- Roll forward to the next date whose weekday is `w` (stay if already `w`);
this is the `weekday=w` adjustment of `dateutil.relativedelta`. -/
def rollForwardWeekday (w : Int) (x : Date) : Date :=
  addDays x ((w - weekday x) % 7).toNat

/-- The ten holiday rules of `USMarketCalendar`. -/
inductive HolidayRule
  | newYears
  | mlk
  | presidents
  | goodFriday
  | memorial
  | juneteenth
  | independence
  | labor
  | thanksgiving
  | christmas
deriving DecidableEq, Repr

/-- The rule list of `USMarketCalendar.rules`. -/
def usMarketRules : List HolidayRule :=
  [.newYears, .mlk, .presidents, .goodFriday, .memorial,
   .juneteenth, .independence, .labor, .thanksgiving, .christmas]

/-- Observed date of a holiday rule for reference year `y`, mirroring the
pandas `Holiday` entries of `USMarketCalendar.rules`. -/
def holidayDate : HolidayRule → Int → Date
  | .newYears, y => nearest_workday ⟨y, 1, 1⟩
  | .mlk, y => rollForwardWeekday 0 (addDays ⟨y, 1, 1⟩ 21)
  | .presidents, y => rollForwardWeekday 0 (addDays ⟨y, 2, 1⟩ 21)
  | .goodFriday, y => subDays (easterDate y) 2
  | .memorial, y => rollForwardWeekday 0 (subDays ⟨y, 5, 31⟩ 7)
  | .juneteenth, y => nearest_workday ⟨y, 6, 19⟩
  | .independence, y => nearest_workday ⟨y, 7, 4⟩
  | .labor, y => rollForwardWeekday 0 (addDays ⟨y, 9, 1⟩ 7)
  | .thanksgiving, y => rollForwardWeekday 3 (addDays ⟨y, 11, 1⟩ 28)
  | .christmas, y => nearest_workday ⟨y, 12, 25⟩

/-- Whether `x` is a `USMarketCalendar` holiday: pandas
`cal.holidays(start=x, end=x)` is nonempty iff some rule observed in some
reference year falls on `x`; pandas scans reference years
`x.year - 1 .. x.year + 1` for a one-day query window. -/
def isHoliday (x : Date) : Bool :=
  usMarketRules.any fun r =>
    [x.year - 1, x.year, x.year + 1].any fun y => decide (holidayDate r y = x)

/-- `is_trading_day`: false on weekends (`weekday() >= 5`) and on holidays. -/
def is_trading_day (x : Date) : Bool :=
  if 5 ≤ weekday x then false
  else ! isHoliday x

/-- Fuelled version of the `while not is_trading_day: current -= 1 day` loop
of `get_last_trading_day`; the Python loop is unbounded, and the C9 theorem
shows fuel 10 always suffices. -/
def lastTradingDayAux : Nat → Date → Option Date
  | 0, _ => none
  | fuel + 1, x => if is_trading_day x then some x else lastTradingDayAux fuel (predDate x)

/-- `get_last_trading_day`: walk backward from the reference date until a
trading day is found. -/
def get_last_trading_day (x : Date) : Date := (lastTradingDayAux 10 x).getD x

/-- `get_trading_days_between`: all trading days in the inclusive range,
ascending (`pd.bdate_range` with the custom business-day calendar). -/
def get_trading_days_between (s e : Date) : List Date :=
  ((List.range (dayNum e - dayNum s + 1).toNat).map (addDays s)).filter
    fun d => is_trading_day d

/-- `detect_missing_days`: expected trading days of the range minus the
existing set, sorted ascending. -/
def detect_missing_days (existing : List Date) (s e : Date) : List Date :=
  (get_trading_days_between s e).filter fun d => ! decide (d ∈ existing)

/-- Lower end of each rule's window of observed dates, as a day-number offset
from January 1 of the reference year. -/
def ruleLo : HolidayRule → Int
  | .newYears => -1
  | .mlk => 21
  | .presidents => 52
  | .goodFriday => 78
  | .memorial => 143
  | .juneteenth => 168
  | .independence => 183
  | .labor => 250
  | .thanksgiving => 332
  | .christmas => 357

/-- Upper end of each rule's window. -/
def ruleHi : HolidayRule → Int
  | .newYears => 1
  | .mlk => 27
  | .presidents => 58
  | .goodFriday => 113
  | .memorial => 150
  | .juneteenth => 171
  | .independence => 186
  | .labor => 257
  | .thanksgiving => 339
  | .christmas => 360

/-! ## Database model (`app/database/models.py`)

The relational store is embedded as explicit state.  `tickers` is the
`Ticker` identity table (id, symbol) plus the autoincrement counter;
`prices` is the `daily_ohlcv` table, keyed by the composite primary key
(ticker_id, date).  Float-valued OHLC payloads are carried as `Int` (the
claims only move and compare them; no claim computes with the numeric
values), with `Option` marking SQL NULL (`pd.notna` checks). -/

/-- A `daily_ohlcv` row.  `opn` stands for the `open` column (a Lean
keyword). -/
structure PriceRow where
  tickerId : Nat
  date : Date
  opn : Option Int
  high : Option Int
  low : Option Int
  close : Int
  volume : Int
deriving DecidableEq, Repr

/-- A row of the long-format provider DataFrame
`{date, ticker, Open, High, Low, Close, Volume}`. -/
structure DFRow where
  ticker : String
  date : Date
  opn : Option Int
  high : Option Int
  low : Option Int
  close : Int
  volume : Int
deriving DecidableEq, Repr

/-- A row of the single-symbol provider DataFrame, indexed by date. -/
structure HRow where
  date : Date
  opn : Int
  high : Int
  low : Int
  close : Int
  volume : Int
deriving DecidableEq, Repr

/-- The `tickers` table: (id, symbol) rows plus the autoincrement counter. -/
structure TickerTable where
  rows : List (Nat × String)
  nextId : Nat
deriving DecidableEq, Repr

/-- Symbol → id lookup (`db.query(Ticker).filter(Ticker.symbol == s)`). -/
def TickerTable.lookup (t : TickerTable) (sym : String) : Option Nat :=
  (t.rows.find? fun p => p.2 == sym).map fun p => p.1

/-- Create `Ticker` rows for the symbols not present yet (bulk backfill:
`missing_symbols = set(ticker_symbols) - set(ticker_map)`, then one
`db.add(Ticker(symbol=s))` per missing symbol with a flushed autoincrement
id). -/
def TickerTable.createMissing (t : TickerTable) (syms : List String) : TickerTable :=
  syms.foldl
    (fun acc s =>
      if (acc.lookup s).isSome then acc
      else ⟨acc.rows ++ [(acc.nextId, s)], acc.nextId + 1⟩)
    t

/-- The composite primary key of a price row. -/
def priceKey (r : PriceRow) : Nat × Date := (r.tickerId, r.date)

/-- PostgreSQL `INSERT .. ON CONFLICT (ticker_id, date) DO UPDATE` for one
row: overwrite the row with the same composite key, else append. -/
def upsertRow (ps : List PriceRow) (r : PriceRow) : List PriceRow :=
  if ps.any fun q => decide (priceKey q = priceKey r) then
    ps.map fun q => if priceKey q = priceKey r then r else q
  else ps ++ [r]

/-- Set-based upsert of a VALUES list, row by row in list order. -/
def upsertRows (ps : List PriceRow) (rows : List PriceRow) : List PriceRow :=
  rows.foldl upsertRow ps

/-- The price-store plus ticker-identity state mutated by the jobs. -/
structure PriceDB where
  tickers : TickerTable
  prices : List PriceRow
deriving DecidableEq, Repr

/-- Step 2 of `_insert_batch_data` / `_upsert_delta_data`: map each DataFrame
row through the symbol → id map, skipping rows whose symbol is not in the
map (`if not t_id: continue`; ids start at 1, so Python falsiness means a
missing or zero id). -/
def rowsToUpsert (t : TickerTable) (df : List DFRow) : List PriceRow :=
  df.filterMap fun r =>
    match t.lookup r.ticker with
    | none => none
    | some tid =>
        if tid = 0 then none
        else some ⟨tid, r.date, r.opn, r.high, r.low, r.close, r.volume⟩

/-- `_insert_batch_data` (bulk backfill): create missing tickers, then bulk
upsert all rows by composite key; returns the new state and the row count. -/
def insert_batch_data (db : PriceDB) (df : List DFRow) : PriceDB × Nat :=
  let symbols := (df.map fun r => r.ticker).eraseDups
  let tickers2 := db.tickers.createMissing symbols
  let rows := rowsToUpsert tickers2 df
  (⟨tickers2, upsertRows db.prices rows⟩, rows.length)

/-- `_upsert_delta_data` (daily delta sync): map symbols through the
*existing* ticker table only — rows whose symbol is unknown are dropped, and
no `Ticker` row is ever created — then bulk upsert by composite key. -/
def upsert_delta_data (db : PriceDB) (df : List DFRow) : PriceDB × Nat :=
  let rows := rowsToUpsert db.tickers df
  (⟨db.tickers, upsertRows db.prices rows⟩, rows.length)

/-! ## Bulk population job (`app/jobs/bulk_population.py`)

Provider calls are oracle parameters returning `Except String (Option df)`:
`.error` models an exception escaping the provider call, `.ok none` models a
`None` result, `.ok (some df)` a DataFrame (possibly empty).  The per-batch
`try/except` of the job is the `match` on that value. -/

/-- Status column of `population_progress`. -/
inductive CheckpointStatus
  | inProgress
  | completed
  | failed
deriving DecidableEq, Repr

/-- A `population_progress` checkpoint row (timestamps not modelled). -/
structure Checkpoint where
  batchNumber : Nat
  tickerList : List String
  status : CheckpointStatus
  errorMessage : Option String
  recordsInserted : Nat
deriving DecidableEq, Repr

/-- Status column of `failed_tickers`. -/
inductive FailedStatus
  | pending
  | retrying
  | permanentFailure
deriving DecidableEq, Repr

/-- A `failed_tickers` retry-queue row (timestamps not modelled). -/
structure FailedTicker where
  ticker : String
  batchNumber : Nat
  errorMessage : String
  retryCount : Nat
  status : FailedStatus
deriving DecidableEq, Repr

/-- The statistics record returned by `populate_all_stocks`. -/
structure BulkStats where
  totalTickers : Nat
  totalBatches : Nat
  completedBatches : Nat
  failedBatches : Nat
  recordsInserted : Nat
  failedTickers : Nat
deriving DecidableEq, Repr

/-- The zero statistics the job starts from (and returns on early exits). -/
def BulkStats.init : BulkStats := ⟨0, 0, 0, 0, 0, 0⟩

/-- Full state threaded through the bulk job. -/
structure BulkState where
  db : PriceDB
  checkpoints : List Checkpoint
  retryQueue : List FailedTicker
  stats : BulkStats
deriving DecidableEq, Repr

/-- Python `[l[i:i+bs] for i in range(0, len(l), bs)]`. -/
def batchSlices (bs : Nat) (l : List α) : List (List α) :=
  (List.range ((l.length + bs - 1) / bs)).map fun i => (l.drop (i * bs)).take bs

/-- Mark-failed path shared by the `None`/empty branch and the `except`
branch of a bulk batch: checkpoint `failed`, every ticker of the batch
enqueued as `pending` in the retry queue, counters bumped, job continues. -/
def failBatch (batchNum : Nat) (batch : List String) (cpMsg qMsg : String)
    (st : BulkState) : BulkState :=
  { st with
    checkpoints := st.checkpoints ++ [⟨batchNum, batch, .failed, some cpMsg, 0⟩],
    retryQueue := st.retryQueue ++ batch.map fun t => ⟨t, batchNum, qMsg, 0, .pending⟩,
    stats := { st.stats with
      failedBatches := st.stats.failedBatches + 1,
      failedTickers := st.stats.failedTickers + batch.length } }

/-- One iteration of the bulk batch loop (after the resume skip check): the
`in_progress` checkpoint is written and then finalized as `completed` or
`failed` according to the provider outcome. -/
def processBatch (fetch : Except String (Option (List DFRow))) (batchNum : Nat)
    (batch : List String) (st : BulkState) : BulkState :=
  match fetch with
  | .error e => failBatch batchNum batch e e st
  | .ok none =>
      failBatch batchNum batch "No data returned from provider" "No data in batch response" st
  | .ok (some df) =>
      if df.isEmpty then
        failBatch batchNum batch "No data returned from provider" "No data in batch response" st
      else
        let r := insert_batch_data st.db df
        { st with
          db := r.1,
          checkpoints := st.checkpoints ++ [⟨batchNum, batch, .completed, none, r.2⟩],
          stats := { st.stats with
            completedBatches := st.stats.completedBatches + 1,
            recordsInserted := st.stats.recordsInserted + r.2 } }

/-- The bulk batch loop: skip batches whose number is in the completed set
(resume mode), process the rest; a failed batch never aborts the loop. -/
def runBatches (fetch : Nat → Except String (Option (List DFRow)))
    (completedSet : List Nat) :
    List (Nat × List String) → BulkState → BulkState
  | [], st => st
  | (batchNum, batch) :: rest, st =>
      if batchNum ∈ completedSet then
        runBatches fetch completedSet rest
          { st with stats :=
            { st.stats with completedBatches := st.stats.completedBatches + 1 } }
      else
        runBatches fetch completedSet rest (processBatch (fetch batchNum) batchNum batch st)

/-- The batch numbers already checkpointed `completed`
(`db.query(PopulationProgress).filter(status == 'completed')`). -/
def completedBatchNumbers (cps : List Checkpoint) : List Nat :=
  (cps.filter fun cp => cp.status == .completed).map fun cp => cp.batchNumber

/-- `populate_all_stocks`: partition the universe into batches of 100 in list
order, skip completed checkpoints when resuming, process every remaining
batch, and always return a statistics record (early exit on an empty ticker
list). -/
def populate_all_stocks (tickers : List String) (resume : Bool)
    (fetch : Nat → Except String (Option (List DFRow))) (st0 : BulkState) : BulkState :=
  if tickers.isEmpty then { st0 with stats := BulkStats.init }
  else
    let batches := batchSlices 100 tickers
    let completedSet := if resume then completedBatchNumbers st0.checkpoints else []
    let numbered := (batches.enum.map fun p => (p.1 + 1, p.2))
    runBatches fetch completedSet numbered
      { st0 with stats :=
        { BulkStats.init with
          totalTickers := tickers.length,
          totalBatches := batches.length } }

/-! ## Retry queue processor (`retry_failed_tickers`) -/

/-- Processing of one selected retry entry: mark `retrying` and bump
`retry_count`; on data, upsert the series (creating the ticker if missing)
and delete the entry; on an empty/`None` result, set the entry back to
`pending`; on an exception, `permanent_failure` once `retry_count >= 3`,
else `pending`. -/
def retryOne (db : PriceDB) (e : FailedTicker)
    (fetch : Except String (Option (List HRow))) : PriceDB × Option FailedTicker :=
  let e1 := { e with status := FailedStatus.retrying, retryCount := e.retryCount + 1 }
  match fetch with
  | .error msg =>
      (db, some { e1 with
        status := if 3 ≤ e1.retryCount then .permanentFailure else .pending,
        errorMessage := msg })
  | .ok none => (db, some { e1 with status := .pending, errorMessage := "No data returned" })
  | .ok (some df) =>
      if df.isEmpty then
        (db, some { e1 with status := .pending, errorMessage := "No data returned" })
      else
        let tickers2 := db.tickers.createMissing [e.ticker]
        let tid := (tickers2.lookup e.ticker).getD 0
        let rows := df.map fun r =>
          PriceRow.mk tid r.date (some r.opn) (some r.high) (some r.low) r.close r.volume
        (⟨tickers2, upsertRows db.prices rows⟩, none)

/-- Selection filter of the processor: `status == 'pending' AND
retry_count < 3`. -/
def retrySelected (e : FailedTicker) : Bool :=
  e.status == .pending && e.retryCount < 3

/-- `retry_failed_tickers`: process each selected entry individually; a
successful retry removes the entry from the queue, everything not selected
is untouched. -/
def retry_failed_tickers (fetch : String → Except String (Option (List HRow)))
    (db : PriceDB) (queue : List FailedTicker) : PriceDB × List FailedTicker :=
  let selected := queue.filter retrySelected
  let rest := queue.filter fun e => ! retrySelected e
  let final := selected.foldl
    (fun acc e =>
      let r := retryOne acc.1 e (fetch e.ticker)
      (r.1, acc.2 ++ r.2.toList))
    (db, ([] : List FailedTicker))
  (final.1, rest ++ final.2)

/-! ## Daily delta sync (`app/jobs/daily_sync.py`) -/

/-- The statistics record of `daily_delta_sync`. -/
structure DeltaStats where
  totalTickers : Nat
  updated : Nat
  failed : Nat
  noUpdateNeeded : Nat
  recordsInserted : Nat
deriving DecidableEq, Repr

/-- Zero delta statistics. -/
def DeltaStats.init : DeltaStats := ⟨0, 0, 0, 0, 0⟩

/-- `db.query(func.max(DailyOHLCV.date)).scalar()`: the latest stored price
date, `none` on an empty store. -/
def maxStoredDate (ps : List PriceRow) : Option Date :=
  ps.foldl
    (fun acc r =>
      match acc with
      | none => some r.date
      | some d => if dayNum d < dayNum r.date then some r.date else some d)
    none

/-- The batch loop of the delta sync: each batch issues one provider call
(counted), upserts on data, counts failures otherwise, and never halts the
loop. -/
def deltaBatchLoop (fetch : List String → Date → Date → Except String (Option (List DFRow)))
    (ds de : Date) :
    List (List String) → PriceDB × Nat × DeltaStats → PriceDB × Nat × DeltaStats
  | [], acc => acc
  | batch :: rest, (db, calls, stats) =>
      match fetch batch ds de with
      | .error _ =>
          deltaBatchLoop fetch ds de rest
            (db, calls + 1, { stats with failed := stats.failed + batch.length })
      | .ok none =>
          deltaBatchLoop fetch ds de rest
            (db, calls + 1, { stats with failed := stats.failed + batch.length })
      | .ok (some df) =>
          if df.isEmpty then
            deltaBatchLoop fetch ds de rest
              (db, calls + 1, { stats with failed := stats.failed + batch.length })
          else
            let r := upsert_delta_data db df
            deltaBatchLoop fetch ds de rest
              (r.1, calls + 1,
                { stats with
                  updated := stats.updated + batch.length,
                  recordsInserted := stats.recordsInserted + r.2 })

/-- `daily_delta_sync`: no-op (zero provider calls, store untouched) unless
today is a trading day, the store is nonempty, and the latest stored date is
strictly before the last trading day; otherwise fetch only the delta range
for the already-tracked tickers and upsert it.  The second component counts
provider invocations. -/
def daily_delta_sync (today : Date) (db : PriceDB)
    (fetch : List String → Date → Date → Except String (Option (List DFRow))) :
    PriceDB × Nat × DeltaStats :=
  if ! is_trading_day today then (db, 0, DeltaStats.init)
  else
    let lastTradingDay := get_last_trading_day today
    match maxStoredDate db.prices with
    | none => (db, 0, DeltaStats.init)
    | some lastDbDate =>
        if dayNum lastTradingDay ≤ dayNum lastDbDate then (db, 0, DeltaStats.init)
        else
          let deltaStart := succDate lastDbDate
          let deltaEnd := lastTradingDay
          let tickerList := db.tickers.rows.map fun p => p.2
          if tickerList.isEmpty then
            (db, 0, { DeltaStats.init with totalTickers := 0 })
          else
            deltaBatchLoop fetch deltaStart deltaEnd (batchSlices 100 tickerList)
              (db, 0, { DeltaStats.init with totalTickers := tickerList.length })

/-! ## Fundamentals rotation (`app/jobs/fundamentals_updater.py`) -/

/-- The slice of the ordered tracked-ticker list refreshed on cycle day
`dayOfWeek` (Monday = 0 .. Sunday = 6): `all_tickers[start_idx:end_idx]`
with `segment = total // 7`, `start = day * segment`, and day 6 absorbing
the remainder. -/
def fundamentalsSlice (dayOfWeek : Nat) (allTickers : List α) : List α :=
  let segment := allTickers.length / 7
  let start := dayOfWeek * segment
  let stop := if dayOfWeek = 6 then allTickers.length else start + segment
  (allTickers.drop start).take (stop - start)

/-! ## Provider fetch operations (`app/providers/yfinance_provider.py`)

Each fetch is a pure body in the `Except` monad (upstream I/O is an oracle
argument, exceptions propagate through `Except`) wrapped by the method's
`try/except` boundary that converts any exception to the no-data signal. -/

/-- A row of the raw wide/stacked `yf.download` frame, where any of the
value columns may be NaN. -/
structure RawRow where
  ticker : String
  date : Date
  opn : Option Int
  high : Option Int
  low : Option Int
  close : Option Int
  volume : Option Int
deriving DecidableEq, Repr

/-- Body of `get_historical_prices` (inside `try`): empty frame ↦ `None`,
data ↦ the OHLCV extraction. -/
def get_historical_pricesE (upstream : Except String (List HRow)) :
    Except String (Option (List HRow)) := do
  let df ← upstream
  if df.isEmpty then pure none else pure (some df)

/-- `get_historical_prices`: the body with the `except Exception: return
None` boundary. -/
def get_historical_prices (upstream : Except String (List HRow)) : Option (List HRow) :=
  match get_historical_pricesE upstream with
  | .ok r => r
  | .error _ => none

/-- Body of `get_batch_historical_prices` (inside `try`): empty download ↦
`None`; otherwise drop rows with NaN in Open/High/Low/Close, fill NaN volume
with 0, and keep the OHLCV columns. -/
def get_batch_historical_pricesE (upstream : Except String (List RawRow)) :
    Except String (Option (List DFRow)) := do
  let data ← upstream
  if data.isEmpty then pure none
  else
    let kept := data.filter fun r =>
      r.opn.isSome && r.high.isSome && r.low.isSome && r.close.isSome
    pure (some (kept.map fun r =>
      DFRow.mk r.ticker r.date r.opn r.high r.low (r.close.getD 0) (r.volume.getD 0)))

/-- `get_batch_historical_prices` with its `except` boundary. -/
def get_batch_historical_prices (upstream : Except String (List RawRow)) :
    Option (List DFRow) :=
  match get_batch_historical_pricesE upstream with
  | .ok r => r
  | .error _ => none

/-- `get_fundamentals`: `None` on exception, on a missing/tiny `info` dict
(`len(info) < 5`), else the normalized record (the field relabelling is
carried opaquely). -/
def get_fundamentals (upstream : Except String (List (String × Int))) :
    Option (List (String × Int)) :=
  match upstream with
  | .error _ => none
  | .ok info => if info.length < 5 then none else some info

/-- `get_batch_fundamentals`: sequential per-ticker `get_fundamentals`
calls; failing tickers are skipped, so the result maps each fetched ticker
to its record and is empty when everything fails. -/
def get_batch_fundamentals (upstream : String → Except String (List (String × Int)))
    (tickers : List String) : List (String × List (String × Int)) :=
  tickers.foldl
    (fun acc t =>
      match get_fundamentals (upstream t) with
      | some f => acc ++ [(t, f)]
      | none => acc)
    []

/-! ## Read path (`app/services/stock_service.py`) -/

/-- Insertion into a date-ascending list of price rows. -/
def insertByDate (r : PriceRow) : List PriceRow → List PriceRow
  | [] => [r]
  | q :: rest => if dayNum r.date ≤ dayNum q.date then r :: q :: rest
      else q :: insertByDate r rest

/-- `ORDER BY date` over the selected rows. -/
def sortByDate (ps : List PriceRow) : List PriceRow :=
  ps.foldr insertByDate []

/-- `get_price_history` (the `use_cache=False` path used by the price-history
route): resolve the ticker, select its rows in the requested inclusive range
ordered by date, and return them; the gap check of the docstring is
commented out in the source, so no missing-day computation, provider fetch,
upsert, or merge happens and the store is left untouched. -/
def get_price_history (db : PriceDB) (ticker : String) (sd ed : Date) : List PriceRow :=
  match db.tickers.lookup ticker with
  | none => []
  | some tid =>
      sortByDate (db.prices.filter fun p =>
        decide (p.tickerId = tid) && decide (dayNum sd ≤ dayNum p.date)
          && decide (dayNum p.date ≤ dayNum ed))

/-! ## Ticker universe (`app/utils/ticker_list.py`)

`get_all_us_tickers` concatenates the two exchange files, strips and filters
the symbols, and returns `list(set(all_tickers))`.  Python set enumeration
order is unspecified and changes across interpreter restarts (string hash
randomization), so the function returns *some* duplicate-free enumeration of
the cleaned symbol set; `IsSetEnumeration` captures exactly the outputs
`list(set(...))` can produce. -/

/-- Python `str.strip()` (over the char sequence, so it evaluates in the
kernel). -/
def pyStrip (s : String) : String :=
  String.mk (((s.data.dropWhile Char.isWhitespace).reverse.dropWhile
    Char.isWhitespace).reverse)

/-- The cleaning pipeline of `get_all_us_tickers` before `list(set(...))`:
keep non-empty, non-`'nan'` symbols, strip them, drop `.TEST` issues. -/
def cleanTickers (raw : List String) : List String :=
  ((raw.filter fun t => t != "" && pyStrip t != "" && t != "nan").map pyStrip).filter
    fun t => ! t.endsWith ".TEST"

/-- The possible return values of `get_all_us_tickers` on raw symbol list
`raw`: any duplicate-free enumeration of the cleaned set. -/
def IsSetEnumeration (raw enum : List String) : Prop :=
  enum.Nodup ∧ ∀ t, t ∈ enum ↔ t ∈ cleanTickers raw

/-- A 101-symbol universe, so that the 100-sized batch partition has two
batches. -/
def tickersU : List String := (List.range 101).map fun n => toString n

/-- A 201-symbol universe, so that the 100-sized batch partition has three
batches and each failure shape of the provider can be exercised on one. -/
def tickersV : List String := (List.range 201).map fun n => toString n

/-- Oracle for the C4 witness: batch 1 returns `None`, batch 2 returns an
empty frame, batch 3 raises. -/
def fetchW : Nat → Except String (Option (List DFRow)) :=
  fun n =>
    if n = 1 then Except.ok none
    else if n = 2 then Except.ok (some []) else Except.error "boom"

/-- Initial state for the C4 witness. -/
def st0W : BulkState := ⟨⟨⟨[], 1⟩, []⟩, [], [], BulkStats.init⟩

/-! ## Ticker-table well-formedness (schema invariants of `tickers`) -/

/-- Well-formedness the relational schema gives the `tickers` table: primary
keys are distinct and below the autoincrement counter. -/
def TickerWF (t : TickerTable) : Prop :=
  (t.rows.map Prod.fst).Nodup ∧ ∀ p ∈ t.rows, p.1 < t.nextId

lemma dayNum_def (x : Date) :
    dayNum x = 365 * (x.year - 1) + (x.year - 1) / 4 - (x.year - 1) / 100
      + (x.year - 1) / 400 + (daysBefore x.year x.month : Int) + x.day := rfl

lemma valid_mk (y : Int) (m d : Nat) (h1 : 1 ≤ m) (h2 : m ≤ 12) (h3 : 1 ≤ d)
    (h4 : d ≤ monthLen y m) : Date.Valid ⟨y, m, d⟩ := ⟨h1, h2, h3, h4⟩

lemma monthLen_pos (y : Int) (m : Nat) (h1 : 1 ≤ m) (h2 : m ≤ 12) :
    1 ≤ monthLen y m := by
  interval_cases m <;> simp [monthLen] <;> omega

lemma daysBefore_succ (y : Int) (m : Nat) (h1 : 1 ≤ m) (h2 : m ≤ 11) :
    daysBefore y (m + 1) = daysBefore y m + monthLen y m := by
  interval_cases m <;> simp [daysBefore, monthLen] <;> omega

lemma daysBefore_one (y : Int) : daysBefore y 1 = 0 := by simp [daysBefore]

lemma daysBefore_twelve (y : Int) : daysBefore y 12 = 334 + leapN y := by
  simp [daysBefore]

lemma leap_delta (z : Int) :
    z / 4 - (z - 1) / 4 - (z / 100 - (z - 1) / 100) + (z / 400 - (z - 1) / 400)
      = (leapN z : Int) := by
  unfold leapN isLeap
  simp only [Bool.and_eq_true, Bool.or_eq_true, beq_iff_eq, bne_iff_ne]
  split <;> omega

lemma predDate_day (x : Date) (h : 1 < x.day) :
    predDate x = ⟨x.year, x.month, x.day - 1⟩ := by
  unfold predDate; rw [if_pos h]

lemma predDate_month (x : Date) (h : ¬ 1 < x.day) (h2 : 1 < x.month) :
    predDate x = ⟨x.year, x.month - 1, monthLen x.year (x.month - 1)⟩ := by
  unfold predDate; rw [if_neg h, if_pos h2]

lemma predDate_year (x : Date) (h : ¬ 1 < x.day) (h2 : ¬ 1 < x.month) :
    predDate x = ⟨x.year - 1, 12, 31⟩ := by
  unfold predDate; rw [if_neg h, if_neg h2]

lemma dayNum_predDate (x : Date) (hx : x.Valid) :
    dayNum (predDate x) = dayNum x - 1 := by
  obtain ⟨hm1, hm2, hd1, hd2⟩ := hx
  by_cases hd : 1 < x.day
  · rw [predDate_day x hd]
    simp only [dayNum_def]
    omega
  · by_cases hm : 1 < x.month
    · rw [predDate_month x hd hm]
      simp only [dayNum_def]
      have hsub : daysBefore x.year x.month
          = daysBefore x.year (x.month - 1) + monthLen x.year (x.month - 1) := by
        have := daysBefore_succ x.year (x.month - 1) (by omega) (by omega)
        rw [show x.month - 1 + 1 = x.month from by omega] at this
        exact this
      omega
    · rw [predDate_year x hd hm]
      simp only [dayNum_def]
      have hm1' : x.month = 1 := by omega
      rw [hm1', daysBefore_one, daysBefore_twelve]
      have hld := leap_delta (x.year - 1)
      omega

lemma valid_predDate (x : Date) (hx : x.Valid) : (predDate x).Valid := by
  obtain ⟨hm1, hm2, hd1, hd2⟩ := hx
  by_cases hd : 1 < x.day
  · rw [predDate_day x hd]
    exact valid_mk _ _ _ hm1 hm2 (by omega) (by omega)
  · by_cases hm : 1 < x.month
    · rw [predDate_month x hd hm]
      exact valid_mk _ _ _ (by omega) (by omega)
        (monthLen_pos _ _ (by omega) (by omega)) (le_refl _)
    · rw [predDate_year x hd hm]
      exact valid_mk _ _ _ (by omega) (by omega) (by omega) (by simp [monthLen])

lemma succDate_day (x : Date) (h : x.day < monthLen x.year x.month) :
    succDate x = ⟨x.year, x.month, x.day + 1⟩ := by
  unfold succDate; rw [if_pos h]

lemma succDate_month (x : Date) (h : ¬ x.day < monthLen x.year x.month)
    (h2 : x.month < 12) : succDate x = ⟨x.year, x.month + 1, 1⟩ := by
  unfold succDate; rw [if_neg h, if_pos h2]

lemma succDate_year (x : Date) (h : ¬ x.day < monthLen x.year x.month)
    (h2 : ¬ x.month < 12) : succDate x = ⟨x.year + 1, 1, 1⟩ := by
  unfold succDate; rw [if_neg h, if_neg h2]

lemma dayNum_succDate (x : Date) (hx : x.Valid) :
    dayNum (succDate x) = dayNum x + 1 := by
  obtain ⟨hm1, hm2, hd1, hd2⟩ := hx
  by_cases hd : x.day < monthLen x.year x.month
  · rw [succDate_day x hd]
    simp only [dayNum_def]
    omega
  · by_cases hm : x.month < 12
    · rw [succDate_month x hd hm]
      simp only [dayNum_def]
      have hsub := daysBefore_succ x.year x.month (by omega) (by omega)
      omega
    · rw [succDate_year x hd hm]
      simp only [dayNum_def]
      rw [show x.year + 1 - 1 = x.year from by ring]
      have hm12 : x.month = 12 := by omega
      have hml : monthLen x.year 12 = 31 := rfl
      rw [hm12, daysBefore_one, daysBefore_twelve]
      have hld := leap_delta x.year
      rw [hm12, hml] at hd
      rw [hm12, hml] at hd2
      omega

lemma valid_succDate (x : Date) (hx : x.Valid) : (succDate x).Valid := by
  obtain ⟨hm1, hm2, hd1, hd2⟩ := hx
  by_cases hd : x.day < monthLen x.year x.month
  · rw [succDate_day x hd]
    exact valid_mk _ _ _ hm1 hm2 (by omega) (by omega)
  · by_cases hm : x.month < 12
    · rw [succDate_month x hd hm]
      exact valid_mk _ _ _ (by omega) (by omega) (le_refl _)
        (monthLen_pos _ _ (by omega) (by omega))
    · rw [succDate_year x hd hm]
      exact valid_mk _ _ _ (by omega) (by omega) (le_refl _) (by simp [monthLen])

lemma valid_subDays (x : Date) (hx : x.Valid) (k : Nat) : (subDays x k).Valid := by
  induction k generalizing x with
  | zero => exact hx
  | succ n ih =>
      have h1 : subDays x (n + 1) = subDays (predDate x) n := by
        unfold subDays
        rw [Function.iterate_succ_apply]
      rw [h1]
      exact ih (predDate x) (valid_predDate x hx)

lemma dayNum_subDays (x : Date) (hx : x.Valid) (k : Nat) :
    dayNum (subDays x k) = dayNum x - k := by
  induction k generalizing x with
  | zero => simp [subDays]
  | succ n ih =>
      have h1 : subDays x (n + 1) = subDays (predDate x) n := by
        unfold subDays
        rw [Function.iterate_succ_apply]
      rw [h1, ih (predDate x) (valid_predDate x hx), dayNum_predDate x hx]
      omega

lemma valid_addDays (x : Date) (hx : x.Valid) (k : Nat) : (addDays x k).Valid := by
  induction k generalizing x with
  | zero => exact hx
  | succ n ih =>
      have h1 : addDays x (n + 1) = addDays (succDate x) n := by
        unfold addDays
        rw [Function.iterate_succ_apply]
      rw [h1]
      exact ih (succDate x) (valid_succDate x hx)

lemma dayNum_addDays (x : Date) (hx : x.Valid) (k : Nat) :
    dayNum (addDays x k) = dayNum x + k := by
  induction k generalizing x with
  | zero => simp [addDays]
  | succ n ih =>
      have h1 : addDays x (n + 1) = addDays (succDate x) n := by
        unfold addDays
        rw [Function.iterate_succ_apply]
      rw [h1, ih (succDate x) (valid_succDate x hx), dayNum_succDate x hx]
      omega

/-! ## Bounds on the holiday rules

Every observed holiday of reference year `y` falls in a narrow day-number
window relative to January 1 of `y`; the windows of distinct rules are more
than 9 days apart except for Christmas and the following New Year, which is
what makes the 10-day convergence bound of `get_last_trading_day` work. -/

lemma leapN_le (y : Int) : leapN y ≤ 1 := by
  unfold leapN; split <;> omega

lemma easterG_bounds (y : Int) : 0 ≤ easterG y ∧ easterG y ≤ 18 := by
  unfold easterG; omega

lemma easterH_bounds (y : Int) : 0 ≤ easterH y ∧ easterH y < 30 := by
  unfold easterH; omega

lemma easterI_bounds (y : Int) : 0 ≤ easterI y ∧ easterI y ≤ 28 := by
  have hg := easterG_bounds y
  have hh := easterH_bounds y
  unfold easterI
  by_cases h27 : easterH y ≤ 27
  · have h0 : easterH y / 28 = 0 := by omega
    rw [h0]
    omega
  · by_cases h28 : easterH y = 28
    · rw [h28]
      norm_num
      omega
    · have h29 : easterH y = 29 := by omega
      rw [h29]
      norm_num

lemma easterJ_bounds (y : Int) : 0 ≤ easterJ y ∧ easterJ y < 7 := by
  unfold easterJ; omega

lemma easterP_bounds (y : Int) : -6 ≤ easterP y ∧ easterP y ≤ 28 := by
  have hi := easterI_bounds y
  have hj := easterJ_bounds y
  unfold easterP
  omega

lemma daysBefore_vals (y : Int) :
    daysBefore y 2 = 31 ∧ daysBefore y 3 = 59 + leapN y ∧ daysBefore y 4 = 90 + leapN y
      ∧ daysBefore y 5 = 120 + leapN y ∧ daysBefore y 6 = 151 + leapN y
      ∧ daysBefore y 7 = 181 + leapN y ∧ daysBefore y 9 = 243 + leapN y
      ∧ daysBefore y 11 = 304 + leapN y := by
  refine ⟨?_, ?_, ?_, ?_, ?_, ?_, ?_, ?_⟩ <;> simp [daysBefore]

lemma easter_offset (y : Int) :
    (easterDate y).Valid ∧
      dayNum (easterDate y) = dayNum ⟨y, 1, 1⟩ + 86 + (leapN y : Int) + easterP y := by
  have hp := easterP_bounds y
  have hL := leapN_le y
  have hdb := daysBefore_vals y
  unfold easterDate easterMonth easterDay
  by_cases hp3 : easterP y ≤ 3
  · have hm : 3 + (easterP y + 26) / 30 = 3 := by omega
    have hd40 : (easterP y + 6) / 40 = 0 := by omega
    have hdm : (easterP y + 27 + (easterP y + 6) / 40) % 31 = easterP y + 27 := by omega
    rw [hm, hd40] at *
    rw [hdm]
    have hday : (1 + (easterP y + 27)).toNat = (easterP y + 28).toNat := by omega
    rw [hday]
    have htn : ((easterP y + 28).toNat : Int) = easterP y + 28 := by omega
    constructor
    · refine valid_mk _ _ _ (by omega) (by omega) (by omega) ?_
      show (easterP y + 28).toNat ≤ monthLen y 3
      have : monthLen y 3 = 31 := rfl
      omega
    · simp only [dayNum_def]
      rw [daysBefore_one]
      have h3 : ((3 : Int).toNat) = 3 := rfl
      rw [h3, hdb.2.1]
      omega
  · have hm : 3 + (easterP y + 26) / 30 = 4 := by omega
    have hd40 : (easterP y + 6) / 40 = 0 := by omega
    have hdm : (easterP y + 27 + (easterP y + 6) / 40) % 31 = easterP y - 4 := by omega
    rw [hm, hd40] at *
    rw [hdm]
    have hday : (1 + (easterP y - 4)).toNat = (easterP y - 3).toNat := by omega
    rw [hday]
    have htn : ((easterP y - 3).toNat : Int) = easterP y - 3 := by omega
    constructor
    · refine valid_mk _ _ _ (by omega) (by omega) (by omega) ?_
      show (easterP y - 3).toNat ≤ monthLen y 4
      have : monthLen y 4 = 30 := rfl
      omega
    · simp only [dayNum_def]
      rw [daysBefore_one]
      have h4 : ((4 : Int).toNat) = 4 := rfl
      rw [h4, hdb.2.2.1]
      omega

lemma nearest_workday_bounds (x : Date) (hx : x.Valid) :
    (nearest_workday x).Valid ∧ dayNum x - 1 ≤ dayNum (nearest_workday x)
      ∧ dayNum (nearest_workday x) ≤ dayNum x + 1 := by
  unfold nearest_workday
  by_cases h5 : weekday x = 5
  · rw [if_pos h5]
    refine ⟨valid_predDate x hx, ?_, ?_⟩ <;> rw [dayNum_predDate x hx] <;> omega
  · rw [if_neg h5]
    by_cases h6 : weekday x = 6
    · rw [if_pos h6]
      refine ⟨valid_succDate x hx, ?_, ?_⟩ <;> rw [dayNum_succDate x hx] <;> omega
    · rw [if_neg h6]
      exact ⟨hx, by omega, by omega⟩

lemma rollForwardWeekday_bounds (w : Int) (x : Date) (hx : x.Valid) :
    (rollForwardWeekday w x).Valid ∧ dayNum x ≤ dayNum (rollForwardWeekday w x)
      ∧ dayNum (rollForwardWeekday w x) ≤ dayNum x + 6 := by
  unfold rollForwardWeekday
  have h7 : 0 ≤ (w - weekday x) % 7 ∧ (w - weekday x) % 7 < 7 := by omega
  refine ⟨valid_addDays x hx _, ?_, ?_⟩ <;>
    rw [dayNum_addDays x hx] <;> omega

lemma valid_jan1 (y : Int) : Date.Valid ⟨y, 1, 1⟩ :=
  valid_mk _ _ _ (by omega) (by omega) (by omega) (by show 1 ≤ 31; omega)

lemma dayNum_md (y : Int) (m d : Nat) :
    dayNum ⟨y, m, d⟩ = dayNum ⟨y, 1, 1⟩ - 1 + (daysBefore y m : Int) + d := by
  simp only [dayNum_def]
  rw [daysBefore_one]
  omega

lemma holidayDate_bounds (r : HolidayRule) (y : Int) :
    (holidayDate r y).Valid ∧
      dayNum ⟨y, 1, 1⟩ + ruleLo r ≤ dayNum (holidayDate r y) ∧
      dayNum (holidayDate r y) ≤ dayNum ⟨y, 1, 1⟩ + ruleHi r := by
  have hL := leapN_le y
  have hdb := daysBefore_vals y
  cases r
  case newYears =>
    have h := nearest_workday_bounds ⟨y, 1, 1⟩ (valid_jan1 y)
    simp only [holidayDate, ruleLo, ruleHi]
    exact ⟨h.1, by omega, by omega⟩
  case mlk =>
    have hv := valid_addDays ⟨y, 1, 1⟩ (valid_jan1 y) 21
    have hn := dayNum_addDays ⟨y, 1, 1⟩ (valid_jan1 y) 21
    have h := rollForwardWeekday_bounds 0 _ hv
    simp only [holidayDate, ruleLo, ruleHi]
    rw [hn] at h
    exact ⟨h.1, by have := h.2.1; omega, by have := h.2.2; omega⟩
  case presidents =>
    have hvb : Date.Valid ⟨y, 2, 1⟩ :=
      valid_mk _ _ _ (by omega) (by omega) (by omega) (by show 1 ≤ 28 + leapN y; omega)
    have hnb : dayNum ⟨y, 2, 1⟩ = dayNum ⟨y, 1, 1⟩ + 31 := by
      rw [dayNum_md, hdb.1]; omega
    have hv := valid_addDays ⟨y, 2, 1⟩ hvb 21
    have hn := dayNum_addDays ⟨y, 2, 1⟩ hvb 21
    have h := rollForwardWeekday_bounds 0 _ hv
    simp only [holidayDate, ruleLo, ruleHi]
    rw [hn, hnb] at h
    exact ⟨h.1, by have := h.2.1; omega, by have := h.2.2; omega⟩
  case goodFriday =>
    have he := easter_offset y
    have hp := easterP_bounds y
    have hv := valid_subDays (easterDate y) he.1 2
    have hn := dayNum_subDays (easterDate y) he.1 2
    simp only [holidayDate, ruleLo, ruleHi]
    rw [he.2] at hn
    exact ⟨hv, by omega, by omega⟩
  case memorial =>
    have hvb : Date.Valid ⟨y, 5, 31⟩ :=
      valid_mk _ _ _ (by omega) (by omega) (by omega) (by show 31 ≤ 31; omega)
    have hnb : dayNum ⟨y, 5, 31⟩ = dayNum ⟨y, 1, 1⟩ + 150 + leapN y := by
      rw [dayNum_md, hdb.2.2.2.1]; omega
    have hv := valid_subDays ⟨y, 5, 31⟩ hvb 7
    have hn := dayNum_subDays ⟨y, 5, 31⟩ hvb 7
    have h := rollForwardWeekday_bounds 0 _ hv
    simp only [holidayDate, ruleLo, ruleHi]
    rw [hn, hnb] at h
    exact ⟨h.1, by have := h.2.1; omega, by have := h.2.2; omega⟩
  case juneteenth =>
    have hvb : Date.Valid ⟨y, 6, 19⟩ :=
      valid_mk _ _ _ (by omega) (by omega) (by omega) (by show 19 ≤ 30; omega)
    have hnb : dayNum ⟨y, 6, 19⟩ = dayNum ⟨y, 1, 1⟩ + 169 + leapN y := by
      rw [dayNum_md, hdb.2.2.2.2.1]; omega
    have h := nearest_workday_bounds ⟨y, 6, 19⟩ hvb
    simp only [holidayDate, ruleLo, ruleHi]
    rw [hnb] at h
    exact ⟨h.1, by have := h.2.1; omega, by have := h.2.2; omega⟩
  case independence =>
    have hvb : Date.Valid ⟨y, 7, 4⟩ :=
      valid_mk _ _ _ (by omega) (by omega) (by omega) (by show 4 ≤ 31; omega)
    have hnb : dayNum ⟨y, 7, 4⟩ = dayNum ⟨y, 1, 1⟩ + 184 + leapN y := by
      rw [dayNum_md, hdb.2.2.2.2.2.1]; omega
    have h := nearest_workday_bounds ⟨y, 7, 4⟩ hvb
    simp only [holidayDate, ruleLo, ruleHi]
    rw [hnb] at h
    exact ⟨h.1, by have := h.2.1; omega, by have := h.2.2; omega⟩
  case labor =>
    have hvb : Date.Valid ⟨y, 9, 1⟩ :=
      valid_mk _ _ _ (by omega) (by omega) (by omega) (by show 1 ≤ 30; omega)
    have hnb : dayNum ⟨y, 9, 1⟩ = dayNum ⟨y, 1, 1⟩ + 243 + leapN y := by
      rw [dayNum_md, hdb.2.2.2.2.2.2.1]; omega
    have hv := valid_addDays ⟨y, 9, 1⟩ hvb 7
    have hn := dayNum_addDays ⟨y, 9, 1⟩ hvb 7
    have h := rollForwardWeekday_bounds 0 _ hv
    simp only [holidayDate, ruleLo, ruleHi]
    rw [hn, hnb] at h
    exact ⟨h.1, by have := h.2.1; omega, by have := h.2.2; omega⟩
  case thanksgiving =>
    have hvb : Date.Valid ⟨y, 11, 1⟩ :=
      valid_mk _ _ _ (by omega) (by omega) (by omega) (by show 1 ≤ 30; omega)
    have hnb : dayNum ⟨y, 11, 1⟩ = dayNum ⟨y, 1, 1⟩ + 304 + leapN y := by
      rw [dayNum_md, hdb.2.2.2.2.2.2.2]; omega
    have hv := valid_addDays ⟨y, 11, 1⟩ hvb 28
    have hn := dayNum_addDays ⟨y, 11, 1⟩ hvb 28
    have h := rollForwardWeekday_bounds 3 _ hv
    simp only [holidayDate, ruleLo, ruleHi]
    rw [hn, hnb] at h
    exact ⟨h.1, by have := h.2.1; omega, by have := h.2.2; omega⟩
  case christmas =>
    have hvb : Date.Valid ⟨y, 12, 25⟩ :=
      valid_mk _ _ _ (by omega) (by omega) (by omega) (by show 25 ≤ 31; omega)
    have hnb : dayNum ⟨y, 12, 25⟩ = dayNum ⟨y, 1, 1⟩ + 358 + leapN y := by
      rw [dayNum_md, daysBefore_twelve]; omega
    have h := nearest_workday_bounds ⟨y, 12, 25⟩ hvb
    simp only [holidayDate, ruleLo, ruleHi]
    rw [hnb] at h
    exact ⟨h.1, by have := h.2.1; omega, by have := h.2.2; omega⟩

lemma yearStart_succ (y : Int) :
    dayNum ⟨y + 1, 1, 1⟩ = dayNum ⟨y, 1, 1⟩ + 365 + leapN y := by
  simp only [dayNum_def, daysBefore_one]
  rw [show y + 1 - 1 = y from by ring]
  have := leap_delta y
  omega

lemma yearStart_add (y : Int) (k : Nat) :
    dayNum ⟨y, 1, 1⟩ + 365 * k ≤ dayNum ⟨y + k, 1, 1⟩ := by
  induction k with
  | zero => simp
  | succ n ih =>
      have h1 : (y + (n + 1 : Nat)) = (y + n) + 1 := by push_cast; ring
      rw [h1, yearStart_succ (y + n)]
      have := leapN_le (y + n)
      push_cast
      push_cast at ih
      omega

lemma yearStart_lt (y1 y2 : Int) (h : y1 < y2) :
    dayNum ⟨y1, 1, 1⟩ + 365 * (y2 - y1) ≤ dayNum ⟨y2, 1, 1⟩ := by
  have hk : y2 = y1 + ((y2 - y1).toNat : Int) := by omega
  have := yearStart_add y1 (y2 - y1).toNat
  rw [← hk] at this
  omega

lemma ruleLo_ge (r : HolidayRule) : -1 ≤ ruleLo r := by
  cases r <;> simp [ruleLo]

lemma ruleHi_le (r : HolidayRule) : ruleHi r ≤ 360 := by
  cases r <;> simp [ruleHi]

/-- Two observed holidays at most 9 days apart are either the same rule of the
same reference year, or Christmas followed by the next New Year observance. -/
lemma holiday_pair (r1 r2 : HolidayRule) (y1 y2 : Int)
    (hle : dayNum (holidayDate r1 y1) ≤ dayNum (holidayDate r2 y2))
    (hdiff : dayNum (holidayDate r2 y2) - dayNum (holidayDate r1 y1) ≤ 9) :
    (r1 = r2 ∧ y1 = y2) ∨ (r1 = .christmas ∧ r2 = .newYears ∧ y2 = y1 + 1) := by
  obtain ⟨-, hb1lo, hb1hi⟩ := holidayDate_bounds r1 y1
  obtain ⟨-, hb2lo, hb2hi⟩ := holidayDate_bounds r2 y2
  rcases lt_trichotomy y1 y2 with hy | hy | hy
  · by_cases hy1 : y2 = y1 + 1
    · subst hy1
      rw [yearStart_succ y1] at hb2lo hb2hi
      have hL := leapN_le y1
      cases r1 <;> cases r2 <;>
        first
          | (right; refine ⟨rfl, rfl, rfl⟩)
          | (exfalso; simp only [ruleLo, ruleHi] at hb1lo hb1hi hb2lo hb2hi; omega)
    · have h2 : y1 + 2 ≤ y2 := by omega
      have hys := yearStart_lt y1 y2 hy
      have hlo := ruleLo_ge r2
      have hhi := ruleHi_le r1
      exfalso
      omega
  · subst hy
    by_cases hr : r1 = r2
    · subst hr
      exact Or.inl ⟨rfl, rfl⟩
    · exfalso
      cases r1 <;> cases r2 <;>
        first
          | exact hr rfl
          | (simp only [ruleLo, ruleHi] at hb1lo hb1hi hb2lo hb2hi; omega)
  · have hys := yearStart_lt y2 y1 hy
    have hlo := ruleLo_ge r1
    have hhi := ruleHi_le r2
    exfalso
    omega

lemma isHoliday_decode (x : Date) (h : isHoliday x = true) :
    ∃ r y, holidayDate r y = x := by
  unfold isHoliday at h
  rw [List.any_eq_true] at h
  obtain ⟨r, _, h⟩ := h
  rw [List.any_eq_true] at h
  obtain ⟨y, _, h⟩ := h
  exact ⟨r, y, of_decide_eq_true h⟩

lemma window_pair (x : Date) (hx : x.Valid) (a b : Nat) (ha9 : a ≤ 9) (hb9 : b ≤ 9)
    (hab : b < a) (ra rb : HolidayRule) (ya yb : Int)
    (hda : holidayDate ra ya = subDays x a) (hdb : holidayDate rb yb = subDays x b) :
    ra = .christmas ∧ rb = .newYears ∧ yb = ya + 1 := by
  have h1 := dayNum_subDays x hx a
  have h2 := dayNum_subDays x hx b
  have hpair := holiday_pair ra rb ya yb
    (by rw [hda, hdb, h1, h2]; omega)
    (by rw [hda, hdb, h1, h2]; omega)
  rcases hpair with ⟨hr, hy⟩ | h
  · exfalso
    subst hr hy
    rw [hda] at hdb
    have : dayNum (subDays x a) = dayNum (subDays x b) := by rw [hdb]
    rw [h1, h2] at this
    omega
  · exact h

lemma window_triple (x : Date) (hx : x.Valid) (a b c : Nat)
    (ha9 : a ≤ 9) (hb9 : b ≤ 9) (hc9 : c ≤ 9)
    (hba : b < a) (hca : c < a) (hbc : b ≠ c)
    (hha : isHoliday (subDays x a) = true)
    (hhb : isHoliday (subDays x b) = true)
    (hhc : isHoliday (subDays x c) = true) : False := by
  obtain ⟨ra, ya, hda⟩ := isHoliday_decode _ hha
  obtain ⟨rb, yb, hdb⟩ := isHoliday_decode _ hhb
  obtain ⟨rc, yc, hdc⟩ := isHoliday_decode _ hhc
  obtain ⟨hra, hrb, hyb⟩ := window_pair x hx a b ha9 hb9 hba ra rb ya yb hda hdb
  obtain ⟨-, hrc, hyc⟩ := window_pair x hx a c ha9 hc9 hca ra rc ya yc hda hdc
  have heq : holidayDate rb yb = holidayDate rc yc := by rw [hrb, hrc, hyb, hyc]
  rw [hdb, hdc] at heq
  have : dayNum (subDays x b) = dayNum (subDays x c) := by rw [heq]
  rw [dayNum_subDays x hx b, dayNum_subDays x hx c] at this
  omega

lemma holiday_count_le_two (x : Date) (hx : x.Valid) :
    ((Finset.range 10).filter fun k => isHoliday (subDays x k) = true).card ≤ 2 := by
  by_contra hcard
  push_neg at hcard
  rw [Finset.two_lt_card_iff] at hcard
  obtain ⟨a, b, c, ha, hb, hc, hab, hac, hbc⟩ := hcard
  simp only [Finset.mem_filter, Finset.mem_range] at ha hb hc
  by_cases h1 : a < b
  · by_cases h2 : b < c
    · exact window_triple x hx c a b (by omega) (by omega) (by omega)
        (by omega) (by omega) hab hc.2 ha.2 hb.2
    · have h2' : c < b := by omega
      exact window_triple x hx b a c (by omega) (by omega) (by omega)
        (by omega) (by omega) hac hb.2 ha.2 hc.2
  · have h1' : b < a := by omega
    by_cases h3 : a < c
    · exact window_triple x hx c a b (by omega) (by omega) (by omega)
        (by omega) (by omega) hab hc.2 ha.2 hb.2
    · have h3' : c < a := by omega
      exact window_triple x hx a b c (by omega) (by omega) (by omega)
        (by omega) (by omega) hbc ha.2 hb.2 hc.2

lemma weekday_subDays (x : Date) (hx : x.Valid) (k : Nat) :
    weekday (subDays x k) = (weekday x - k) % 7 := by
  unfold weekday
  rw [dayNum_subDays x hx k]
  omega

lemma weekend_count_le_four (x : Date) (hx : x.Valid) :
    ((Finset.range 10).filter fun k => 5 ≤ weekday (subDays x k)).card ≤ 4 := by
  have hfe : ((Finset.range 10).filter fun k => 5 ≤ weekday (subDays x k))
      = (Finset.range 10).filter fun k : Nat => 5 ≤ (weekday x - (k : Int)) % 7 := by
    apply Finset.filter_congr
    intro k _
    rw [weekday_subDays x hx k]
  rw [hfe]
  have hw : 0 ≤ weekday x ∧ weekday x < 7 := by unfold weekday; omega
  obtain ⟨hw0, hw7⟩ := hw
  set w := weekday x with hwdef
  clear_value w
  interval_cases w <;> decide

/-- In any window of 10 consecutive days there is a trading day. -/
lemma exists_trading_in_window (x : Date) (hx : x.Valid) :
    ∃ k ≤ 9, is_trading_day (subDays x k) = true := by
  by_contra hno
  push_neg at hno
  have hall : ∀ k ∈ Finset.range 10,
      5 ≤ weekday (subDays x k) ∨ isHoliday (subDays x k) = true := by
    intro k hk
    rw [Finset.mem_range] at hk
    have hkf := hno k (by omega)
    unfold is_trading_day at hkf
    by_cases h5 : 5 ≤ weekday (subDays x k)
    · exact Or.inl h5
    · right
      rw [if_neg h5] at hkf
      simpa using hkf
  have hsub : Finset.range 10 ⊆
      ((Finset.range 10).filter fun k => 5 ≤ weekday (subDays x k))
        ∪ ((Finset.range 10).filter fun k => isHoliday (subDays x k) = true) := by
    intro k hk
    rw [Finset.mem_union, Finset.mem_filter, Finset.mem_filter]
    rcases hall k hk with h | h
    · exact Or.inl ⟨hk, h⟩
    · exact Or.inr ⟨hk, h⟩
  have hcard := Finset.card_le_card hsub
  have hcu := Finset.card_union_le
    ((Finset.range 10).filter fun k => 5 ≤ weekday (subDays x k))
    ((Finset.range 10).filter fun k => isHoliday (subDays x k) = true)
  have h4 := weekend_count_le_four x hx
  have h2 := holiday_count_le_two x hx
  rw [Finset.card_range] at hcard
  omega

lemma lastTradingDayAux_spec (k : Nat) :
    ∀ (x : Date) (fuel : Nat), k < fuel →
      (∀ j, j < k → is_trading_day (subDays x j) = false) →
      is_trading_day (subDays x k) = true →
      lastTradingDayAux fuel x = some (subDays x k) := by
  induction k with
  | zero =>
      intro x fuel hf _ ht
      obtain ⟨f, rfl⟩ : ∃ f, fuel = f + 1 := ⟨fuel - 1, by omega⟩
      unfold lastTradingDayAux
      have hx0 : subDays x 0 = x := rfl
      rw [hx0] at ht
      rw [hx0, ht]
      simp
  | succ n ih =>
      intro x fuel hf hmin ht
      obtain ⟨f, rfl⟩ : ∃ f, fuel = f + 1 := ⟨fuel - 1, by omega⟩
      unfold lastTradingDayAux
      have h0 : is_trading_day x = false := by
        have := hmin 0 (by omega)
        simpa [subDays] using this
      rw [h0]
      simp only [Bool.false_eq_true, if_false]
      have hshift : ∀ j : Nat, subDays x (j + 1) = subDays (predDate x) j := by
        intro j
        unfold subDays
        rw [Function.iterate_succ_apply]
      rw [hshift n]
      exact ih (predDate x) f (by omega)
        (fun j hj => by rw [← hshift j]; exact hmin (j + 1) (by omega))
        (by rw [← hshift n]; exact ht)

/-- C9: for every reference date, `get_last_trading_day` terminates by walking
backward day by day until `is_trading_day` holds — it returns the first
trading day at or before the reference date — and it always converges within
10 days of the reference date: there are never 10 consecutive non-trading
days under the weekend-plus-rule-table holiday calendar, so fuel 10 (and any
larger fuel) already suffices for the unbounded Python loop. -/
theorem C9_last_trading_day_converges (x : Date) (hx : x.Valid) :
    ∃ k ≤ 9, is_trading_day (subDays x k) = true ∧
      (∀ j < k, is_trading_day (subDays x j) = false) ∧
      get_last_trading_day x = subDays x k ∧
      ∀ fuel, k < fuel → lastTradingDayAux fuel x = some (subDays x k) := by
  obtain ⟨k0, hk09, hk0⟩ := exists_trading_in_window x hx
  have hex : ∃ k, is_trading_day (subDays x k) = true := ⟨k0, hk0⟩
  refine ⟨Nat.find hex, le_trans (Nat.find_min' hex hk0) hk09, Nat.find_spec hex,
    ?_, ?_, ?_⟩
  · intro j hj
    have := Nat.find_min hex hj
    simpa using this
  · unfold get_last_trading_day
    rw [lastTradingDayAux_spec (Nat.find hex) x 10
      (by have := le_trans (Nat.find_min' hex hk0) hk09; omega)
      (fun j hj => by simpa using Nat.find_min hex hj) (Nat.find_spec hex)]
    rfl
  · intro fuel hfu
    exact lastTradingDayAux_spec (Nat.find hex) x fuel hfu
      (fun j hj => by simpa using Nat.find_min hex hj) (Nat.find_spec hex)

/-- Witness for C9 at Sunday 2024-07-07: the walk stops two days back, on
Friday 2024-07-05. -/
theorem C9_last_trading_day_converges_witness :
    Date.Valid ⟨2024, 7, 7⟩ ∧
      ∃ k ≤ 9, is_trading_day (subDays ⟨2024, 7, 7⟩ k) = true ∧
        (∀ j < k, is_trading_day (subDays ⟨2024, 7, 7⟩ j) = false) ∧
        get_last_trading_day ⟨2024, 7, 7⟩ = subDays ⟨2024, 7, 7⟩ k ∧
        ∀ fuel, k < fuel →
          lastTradingDayAux fuel ⟨2024, 7, 7⟩ = some (subDays ⟨2024, 7, 7⟩ k) :=
  ⟨by decide, C9_last_trading_day_converges ⟨2024, 7, 7⟩ (by decide)⟩

/-! ## Rotation coverage lemmas -/

lemma take_drop_chain (l : List α) (n m : Nat) :
    (l.drop n).take m ++ l.drop (n + m) = l.drop n := by
  have h1 : l.drop (n + m) = (l.drop n).drop m := by
    rw [List.drop_drop, Nat.add_comm]
  rw [h1, List.take_append_drop]

lemma join_take_chunks (l : List α) (s : Nat) :
    ∀ k : Nat, ((List.range k).map fun d => (l.drop (d * s)).take s).flatten
      ++ l.drop (k * s) = l := by
  intro k
  induction k with
  | zero => simp
  | succ n ih =>
      rw [List.range_succ, List.map_append, List.flatten_append]
      simp only [List.map_cons, List.map_nil, List.flatten_cons, List.flatten_nil,
        List.append_nil]
      rw [List.append_assoc]
      rw [show (n + 1) * s = n * s + s from by ring]
      rw [take_drop_chain l (n * s) s]
      exact ih

lemma fundamentalsSlice_lt6 (l : List α) (d : Nat) (hd : d < 6) :
    fundamentalsSlice d l = (l.drop (d * (l.length / 7))).take (l.length / 7) := by
  simp only [fundamentalsSlice]
  rw [if_neg (by omega)]
  congr 1
  omega

lemma fundamentalsSlice_6 (l : List α) :
    fundamentalsSlice 6 l = l.drop (6 * (l.length / 7)) := by
  simp only [fundamentalsSlice, if_true]
  apply List.take_of_length_le
  rw [List.length_drop]

lemma fundamentalsSlices_join (l : List α) :
    ((List.range 7).map fun d => fundamentalsSlice d l).flatten = l := by
  have h7 : List.range 7 = List.range 6 ++ [6] := by decide
  rw [h7, List.map_append, List.flatten_append]
  have hmap : (List.range 6).map (fun d => fundamentalsSlice d l)
      = (List.range 6).map fun d => (l.drop (d * (l.length / 7))).take (l.length / 7) := by
    apply List.map_congr_left
    intro d hd
    rw [List.mem_range] at hd
    exact fundamentalsSlice_lt6 l d hd
  rw [hmap]
  simp only [List.map_cons, List.map_nil, List.flatten_cons, List.flatten_nil,
    List.append_nil]
  rw [fundamentalsSlice_6 l]
  exact join_take_chunks l (l.length / 7) 6

/-- C7: for every ordered tracked-ticker universe, the seven daily slices of
the fundamentals rotation (day 0..5 a contiguous 1/7th slice, day 6
absorbing the integer-division remainder) concatenate, in order, to exactly
the full universe — each position is covered exactly once — and for a
duplicate-free universe the seven slices are pairwise disjoint. -/
theorem C7_rotation_slices_cover (l : List String) :
    ((List.range 7).map fun d => fundamentalsSlice d l).flatten = l ∧
      (l.Nodup →
        ((List.range 7).map fun d => fundamentalsSlice d l).Pairwise List.Disjoint) := by
  refine ⟨fundamentalsSlices_join l, fun hnd => ?_⟩
  have hj : (((List.range 7).map fun d => fundamentalsSlice d l).flatten).Nodup := by
    rw [fundamentalsSlices_join l]
    exact hnd
  exact (List.nodup_flatten.mp hj).2

/-- Witness for C7 on a concrete ten-ticker universe: slices are of size one
per day with day 7 absorbing the remaining four tickers. -/
theorem C7_rotation_slices_cover_witness :
    (((List.range 7).map fun d =>
        fundamentalsSlice d ["A", "B", "C", "D", "E", "F", "G", "H", "I", "J"]).flatten
      = ["A", "B", "C", "D", "E", "F", "G", "H", "I", "J"]) ∧
      (["A", "B", "C", "D", "E", "F", "G", "H", "I", "J"].Nodup →
        (((List.range 7).map fun d =>
          fundamentalsSlice d ["A", "B", "C", "D", "E", "F", "G", "H", "I", "J"]).Pairwise
            List.Disjoint)) :=
  C7_rotation_slices_cover ["A", "B", "C", "D", "E", "F", "G", "H", "I", "J"]

/-! ## Provider failure-signal lemmas -/

lemma get_batch_fundamentals_sound (up : String → Except String (List (String × Int))) :
    ∀ (tickers : List String) (acc : List (String × List (String × Int))),
      ∀ p ∈ tickers.foldl
        (fun acc t =>
          match get_fundamentals (up t) with
          | some f => acc ++ [(t, f)]
          | none => acc) acc,
        p ∈ acc ∨ (p.1 ∈ tickers ∧ get_fundamentals (up p.1) = some p.2) := by
  intro tickers
  induction tickers with
  | nil => intro acc p hp; exact Or.inl hp
  | cons t ts ih =>
      intro acc p hp
      simp only [List.foldl_cons] at hp
      rcases hg : get_fundamentals (up t) with - | f
      · rw [hg] at hp
        rcases ih acc p hp with h | h
        · exact Or.inl h
        · exact Or.inr ⟨List.mem_cons_of_mem t h.1, h.2⟩
      · rw [hg] at hp
        rcases ih (acc ++ [(t, f)]) p hp with h | h
        · rcases List.mem_append.mp h with h2 | h2
          · exact Or.inl h2
          · rcases List.mem_singleton.mp h2 with rfl
            exact Or.inr ⟨List.mem_cons_self t ts, hg⟩
        · exact Or.inr ⟨List.mem_cons_of_mem t h.1, h.2⟩

lemma get_batch_fundamentals_all_fail (up : String → Except String (List (String × Int))) :
    ∀ (tickers : List String) (acc : List (String × List (String × Int))),
      (∀ t ∈ tickers, get_fundamentals (up t) = none) →
      tickers.foldl
        (fun acc t =>
          match get_fundamentals (up t) with
          | some f => acc ++ [(t, f)]
          | none => acc) acc = acc := by
  intro tickers
  induction tickers with
  | nil => intro acc _; rfl
  | cons t ts ih =>
      intro acc hall
      simp only [List.foldl_cons]
      rw [hall t (List.mem_cons_self t ts)]
      exact ih acc fun s hs => hall s (List.mem_cons_of_mem t hs)

/-- C8: every provider fetch operation returns the uniform no-data signal on
any upstream error or empty response, and never raises past the provider
boundary (each operation is the total catch-wrapper of its `Except`-typed
body): the single and batch price fetches return `none` on an upstream
exception or an empty frame and data otherwise, and the batch fundamentals
fetch accumulates exactly the tickers whose individual fetch produced data —
an empty mapping when every upstream call fails. -/
theorem C8_provider_uniform_failure :
    (∀ e, get_historical_prices (.error e) = none) ∧
    get_historical_prices (.ok []) = none ∧
    (∀ df, df ≠ [] → get_historical_prices (.ok df) = some df) ∧
    (∀ e, get_batch_historical_prices (.error e) = none) ∧
    get_batch_historical_prices (.ok []) = none ∧
    (∀ data, data ≠ [] → (get_batch_historical_prices (.ok data)).isSome) ∧
    (∀ e, get_fundamentals (.error e) = none) ∧
    (∀ info, info.length < 5 → get_fundamentals (.ok info) = none) ∧
    (∀ up tickers, ∀ p ∈ get_batch_fundamentals up tickers,
      p.1 ∈ tickers ∧ get_fundamentals (up p.1) = some p.2) ∧
    (∀ up tickers, (∀ t ∈ tickers, get_fundamentals (up t) = none) →
      get_batch_fundamentals up tickers = []) := by
  refine ⟨fun e => rfl, rfl, fun df hdf => ?_, fun e => rfl, rfl, fun data hdata => ?_,
    fun e => rfl, fun info hinfo => ?_, fun up tickers p hp => ?_, fun up tickers hall => ?_⟩
  · cases df with
    | nil => exact absurd rfl hdf
    | cons a l => rfl
  · cases data with
    | nil => exact absurd rfl hdata
    | cons a l => rfl
  · show (if info.length < 5 then (none : Option (List (String × Int))) else some info)
      = none
    rw [if_pos hinfo]
  · unfold get_batch_fundamentals at hp
    rcases get_batch_fundamentals_sound up tickers [] p hp with h | h
    · exact absurd h (List.not_mem_nil p)
    · exact h
  · unfold get_batch_fundamentals
    exact get_batch_fundamentals_all_fail up tickers [] hall

/-- Witness for C8: a nonempty single-symbol frame is passed through, a
nonempty raw batch frame produces data, and a four-entry info dict is
rejected as no-data. -/
theorem C8_provider_uniform_failure_witness :
    get_historical_prices (.ok [⟨⟨2024, 7, 1⟩, 1, 2, 3, 4, 5⟩])
        = some [⟨⟨2024, 7, 1⟩, 1, 2, 3, 4, 5⟩] ∧
      (get_batch_historical_prices
        (.ok [⟨"AAPL", ⟨2024, 7, 1⟩, some 1, some 2, some 3, some 4, some 5⟩])).isSome ∧
      get_fundamentals (.ok [("trailingPE", 30)]) = none :=
  ⟨C8_provider_uniform_failure.2.2.1 _ (by decide),
    C8_provider_uniform_failure.2.2.2.2.2.1 _ (by decide),
    C8_provider_uniform_failure.2.2.2.2.2.2.2.1 _ (by decide)⟩

/-- C5: when the latest stored price date is at or beyond the last trading
day, the Delta Sync job performs zero provider calls and zero upserts and
leaves the store unchanged, returning its zero statistics; likewise it is a
no-op on a non-trading day and on an empty store. -/
theorem C5_delta_sync_noop (today : Date) (db : PriceDB)
    (fetch : List String → Date → Date → Except String (Option (List DFRow))) :
    (∀ lastDb, maxStoredDate db.prices = some lastDb →
      dayNum (get_last_trading_day today) ≤ dayNum lastDb →
      daily_delta_sync today db fetch = (db, 0, DeltaStats.init)) ∧
    (is_trading_day today = false →
      daily_delta_sync today db fetch = (db, 0, DeltaStats.init)) ∧
    (maxStoredDate db.prices = none →
      daily_delta_sync today db fetch = (db, 0, DeltaStats.init)) := by
  refine ⟨fun lastDb hmax hle => ?_, fun htd => ?_, fun hmax => ?_⟩
  · unfold daily_delta_sync
    cases htd : is_trading_day today with
    | false => simp [htd]
    | true =>
        simp only [htd, Bool.not_true, Bool.false_eq_true, if_false]
        rw [hmax]
        dsimp only
        rw [if_pos hle]
  · unfold daily_delta_sync
    simp [htd]
  · unfold daily_delta_sync
    cases htd : is_trading_day today with
    | false => simp [htd]
    | true =>
        simp only [htd, Bool.not_true, Bool.false_eq_true, if_false]
        rw [hmax]

/-- Witness for C5: on Monday 2024-07-08 with the store already holding that
date, the sync is a no-op. -/
theorem C5_delta_sync_noop_witness :
    maxStoredDate (PriceDB.mk ⟨[(1, "AAPL")], 2⟩
        [⟨1, ⟨2024, 7, 8⟩, none, none, none, 4, 5⟩]).prices = some ⟨2024, 7, 8⟩ ∧
      dayNum (get_last_trading_day ⟨2024, 7, 8⟩) ≤ dayNum ⟨2024, 7, 8⟩ ∧
      daily_delta_sync ⟨2024, 7, 8⟩
        (PriceDB.mk ⟨[(1, "AAPL")], 2⟩ [⟨1, ⟨2024, 7, 8⟩, none, none, none, 4, 5⟩])
        (fun _ _ _ => Except.ok none)
        = (PriceDB.mk ⟨[(1, "AAPL")], 2⟩ [⟨1, ⟨2024, 7, 8⟩, none, none, none, 4, 5⟩],
          0, DeltaStats.init) :=
  ⟨by decide, by decide,
    (C5_delta_sync_noop ⟨2024, 7, 8⟩
      (PriceDB.mk ⟨[(1, "AAPL")], 2⟩ [⟨1, ⟨2024, 7, 8⟩, none, none, none, 4, 5⟩])
      (fun _ _ _ => Except.ok none)).1 ⟨2024, 7, 8⟩ (by decide) (by decide)⟩

/-! ## Frame lemmas for the delta path -/

lemma rowsToUpsert_known (t : TickerTable) (df : List DFRow) :
    rowsToUpsert t df
      = rowsToUpsert t (df.filter fun r => (t.lookup r.ticker).isSome) := by
  induction df with
  | nil => rfl
  | cons r rest ih =>
      simp only [rowsToUpsert, List.filterMap_cons, List.filter_cons] at *
      cases hl : t.lookup r.ticker with
      | none => simp only [hl, Option.isSome_none, Bool.false_eq_true, if_false, ih]
      | some tid =>
          simp only [hl, Option.isSome_some, if_true, List.filterMap_cons, ih]

lemma rowsToUpsert_ids (t : TickerTable) (df : List DFRow) :
    ∀ r ∈ rowsToUpsert t df, ∃ p ∈ t.rows, r.tickerId = p.1 := by
  intro r hr
  unfold rowsToUpsert at hr
  rw [List.mem_filterMap] at hr
  obtain ⟨a, -, ha⟩ := hr
  cases hl : t.lookup a.ticker with
  | none => rw [hl] at ha; exact absurd ha (by simp)
  | some tid =>
      rw [hl] at ha
      dsimp only at ha
      by_cases h0 : tid = 0
      · rw [if_pos h0] at ha
        exact absurd ha (by simp)
      · rw [if_neg h0] at ha
        obtain rfl := Option.some_injective _ ha
        unfold TickerTable.lookup at hl
        rw [Option.map_eq_some'] at hl
        obtain ⟨q, hq, hq1⟩ := hl
        exact ⟨q, List.mem_of_find?_eq_some hq, hq1.symm⟩

lemma deltaBatchLoop_tickers
    (fetch : List String → Date → Date → Except String (Option (List DFRow)))
    (ds de : Date) :
    ∀ (batches : List (List String)) (acc : PriceDB × Nat × DeltaStats),
      (deltaBatchLoop fetch ds de batches acc).1.tickers = acc.1.tickers := by
  intro batches
  induction batches with
  | nil => intro acc; rfl
  | cons b rest ih =>
      intro acc
      obtain ⟨db, calls, stats⟩ := acc
      unfold deltaBatchLoop
      cases fetch b ds de with
      | error e => rw [ih]
      | ok r =>
          cases r with
          | none => rw [ih]
          | some df =>
              dsimp only
              by_cases hdf : df.isEmpty
              · rw [if_pos hdf, ih]
              · rw [if_neg hdf, ih]
                rfl

/-- C10: the Delta Sync upsert step never creates Ticker identity rows —
every written price row carries an id already present in the Ticker table,
rows whose symbol is unknown are silently dropped, and the whole job leaves
the Ticker table exactly as it found it — in contrast to the bulk backfill
insertion step, which creates missing tickers. -/
theorem C10_delta_sync_never_creates_tickers :
    (∀ db df, (upsert_delta_data db df).1.tickers = db.tickers) ∧
    (∀ db df, upsert_delta_data db df
      = upsert_delta_data db (df.filter fun r => (db.tickers.lookup r.ticker).isSome)) ∧
    (∀ (db : PriceDB) df, ∀ r ∈ rowsToUpsert db.tickers df,
      ∃ p ∈ db.tickers.rows, r.tickerId = p.1) ∧
    (∀ today db fetch, (daily_delta_sync today db fetch).1.tickers = db.tickers) ∧
    (insert_batch_data (PriceDB.mk ⟨[], 1⟩ [])
        [⟨"NEW", ⟨2024, 7, 1⟩, none, none, none, 1, 1⟩]).1.tickers
      ≠ (PriceDB.mk ⟨[], 1⟩ []).tickers := by
  refine ⟨fun db df => rfl, fun db df => ?_, fun db df => rowsToUpsert_ids db.tickers df,
    fun today db fetch => ?_, by decide⟩
  · unfold upsert_delta_data
    rw [← rowsToUpsert_known db.tickers df]
  · unfold daily_delta_sync
    split
    · rfl
    · split
      · rfl
      · dsimp only
        split
        · rfl
        · split
          · rfl
          · rw [deltaBatchLoop_tickers]

/-- Witness for C10: a known-symbol row is written with its existing ticker
id while an unknown-symbol row is dropped. -/
theorem C10_delta_sync_never_creates_tickers_witness :
    (PriceRow.mk 1 ⟨2024, 7, 1⟩ none none none 9 9
        ∈ rowsToUpsert (TickerTable.mk [(1, "AAPL")] 2)
          [⟨"AAPL", ⟨2024, 7, 1⟩, none, none, none, 9, 9⟩,
           ⟨"GHOST", ⟨2024, 7, 1⟩, none, none, none, 9, 9⟩]) ∧
      ∃ p ∈ (TickerTable.mk [(1, "AAPL")] 2).rows,
        (PriceRow.mk 1 ⟨2024, 7, 1⟩ none none none 9 9).tickerId = p.1 :=
  ⟨by decide,
    C10_delta_sync_never_creates_tickers.2.2.1
      (PriceDB.mk (TickerTable.mk [(1, "AAPL")] 2) [])
      [⟨"AAPL", ⟨2024, 7, 1⟩, none, none, none, 9, 9⟩,
       ⟨"GHOST", ⟨2024, 7, 1⟩, none, none, none, 9, 9⟩]
      (PriceRow.mk 1 ⟨2024, 7, 1⟩ none none none 9 9) (by decide)⟩

/-- C3: the bulk backfill does not partition the ticker universe
deterministically: `get_all_us_tickers` returns `list(set(...))` with no
sort, so two runs over the same universe can enumerate it in different
orders (hash randomization across interpreter restarts), and then the same
batch number denotes different ticker sets — here symbol "100" falls in
batch 1 on one valid enumeration and not on another, so a resume that skips
a completed batch 1 skips different tickers than the run that completed
it. -/
theorem C3_batch_partition_not_deterministic :
    IsSetEnumeration tickersU tickersU ∧
      IsSetEnumeration tickersU tickersU.reverse ∧
      "100" ∈ (batchSlices 100 tickersU.reverse).headD [] ∧
      "100" ∉ (batchSlices 100 tickersU).headD [] := by
  have hclean : cleanTickers tickersU = tickersU := by decide
  refine ⟨⟨by decide, fun t => ?_⟩, ⟨by decide, fun t => ?_⟩, by decide, by decide⟩
  · rw [hclean]
  · rw [hclean, List.mem_reverse]

/-- C2: evaluation of the retry processor at the failing input — a pending
entry with `retry_count = 2` whose third attempt returns no data.  The code
sets it back to `pending` with `retry_count = 3` instead of
`permanent_failure` (only the exception path checks the cap), and the
selection filter `retry_count < 3` never picks the entry up again, so it
stays `pending` forever. -/
theorem C2_third_no_data_retry_stays_pending :
    (retry_failed_tickers (fun _ => Except.ok none) (PriceDB.mk ⟨[], 1⟩ [])
        [⟨"XYZ", 1, "No data in batch response", 2, .pending⟩]).2
      = [⟨"XYZ", 1, "No data returned", 3, .pending⟩] ∧
      FailedStatus.pending ≠ FailedStatus.permanentFailure ∧
      retrySelected ⟨"XYZ", 1, "No data returned", 3, .pending⟩ = false ∧
      (retry_failed_tickers (fun _ => Except.ok none) (PriceDB.mk ⟨[], 1⟩ [])
          [⟨"XYZ", 1, "No data returned", 3, .pending⟩]).2
        = [⟨"XYZ", 1, "No data returned", 3, .pending⟩] :=
  ⟨by decide, by decide, by decide, by decide⟩

/-- C1: evaluation of the price-history read at a store with an interior
missing trading day.  Wednesday 2024-07-02 is a trading day missing from the
stored series over the requested range 2024-07-01..2024-07-03
(`detect_missing_days` reports it), yet `get_price_history` returns exactly
the two stored rows: the gap-check step of its own docstring is commented
out in the source, so no missing-day computation, provider fetch, upsert, or
merge happens on the read path, and the function leaves the store untouched
(it takes no provider and returns without writing). -/
theorem C1_read_path_returns_gapped_series_unfilled :
    detect_missing_days [⟨2024, 7, 1⟩, ⟨2024, 7, 3⟩] ⟨2024, 7, 1⟩ ⟨2024, 7, 3⟩
        = [⟨2024, 7, 2⟩] ∧
      get_price_history
        (PriceDB.mk ⟨[(1, "AAPL")], 2⟩
          [⟨1, ⟨2024, 7, 1⟩, none, none, none, 10, 100⟩,
           ⟨1, ⟨2024, 7, 3⟩, none, none, none, 11, 100⟩])
        "AAPL" ⟨2024, 7, 1⟩ ⟨2024, 7, 3⟩
        = [⟨1, ⟨2024, 7, 1⟩, none, none, none, 10, 100⟩,
           ⟨1, ⟨2024, 7, 3⟩, none, none, none, 11, 100⟩] ∧
      (⟨2024, 7, 2⟩ : Date) ∉ (get_price_history
        (PriceDB.mk ⟨[(1, "AAPL")], 2⟩
          [⟨1, ⟨2024, 7, 1⟩, none, none, none, 10, 100⟩,
           ⟨1, ⟨2024, 7, 3⟩, none, none, none, 11, 100⟩])
        "AAPL" ⟨2024, 7, 1⟩ ⟨2024, 7, 3⟩).map (fun p => p.date) :=
  ⟨by decide, by decide, by decide⟩

/-! ## Bulk job loop lemmas -/

lemma processBatch_checkpoints (f : Except String (Option (List DFRow))) (n : Nat)
    (b : List String) (st : BulkState) :
    ∃ cp, (processBatch f n b st).checkpoints = st.checkpoints ++ [cp]
      ∧ cp.batchNumber = n := by
  unfold processBatch
  cases f with
  | error e => exact ⟨_, rfl, rfl⟩
  | ok r =>
      cases r with
      | none => exact ⟨_, rfl, rfl⟩
      | some df =>
          dsimp only
          by_cases hdf : df.isEmpty
          · rw [if_pos hdf]
            exact ⟨_, rfl, rfl⟩
          · rw [if_neg hdf]
            exact ⟨_, rfl, rfl⟩

lemma processBatch_queue_mono (f : Except String (Option (List DFRow))) (n : Nat)
    (b : List String) (st : BulkState) (fr : FailedTicker) (h : fr ∈ st.retryQueue) :
    fr ∈ (processBatch f n b st).retryQueue := by
  unfold processBatch
  cases f with
  | error e => exact List.mem_append_left _ h
  | ok r =>
      cases r with
      | none => exact List.mem_append_left _ h
      | some df =>
          dsimp only
          by_cases hdf : df.isEmpty
          · rw [if_pos hdf]
            exact List.mem_append_left _ h
          · rw [if_neg hdf]
            exact h

lemma runBatches_checkpoints_mono (fetch : Nat → Except String (Option (List DFRow)))
    (cs : List Nat) :
    ∀ (numbered : List (Nat × List String)) (st : BulkState) (cp : Checkpoint),
      cp ∈ st.checkpoints → cp ∈ (runBatches fetch cs numbered st).checkpoints := by
  intro numbered
  induction numbered with
  | nil => intro st cp h; exact h
  | cons hd rest ih =>
      intro st cp h
      obtain ⟨n, b⟩ := hd
      simp only [runBatches]
      by_cases hn : n ∈ cs
      · rw [if_pos hn]
        exact ih _ cp h
      · rw [if_neg hn]
        apply ih
        obtain ⟨cp2, he, -⟩ := processBatch_checkpoints (fetch n) n b st
        rw [he]
        exact List.mem_append_left _ h

lemma runBatches_queue_mono (fetch : Nat → Except String (Option (List DFRow)))
    (cs : List Nat) :
    ∀ (numbered : List (Nat × List String)) (st : BulkState) (fr : FailedTicker),
      fr ∈ st.retryQueue → fr ∈ (runBatches fetch cs numbered st).retryQueue := by
  intro numbered
  induction numbered with
  | nil => intro st fr h; exact h
  | cons hd rest ih =>
      intro st fr h
      obtain ⟨n, b⟩ := hd
      simp only [runBatches]
      by_cases hn : n ∈ cs
      · rw [if_pos hn]
        exact ih _ fr h
      · rw [if_neg hn]
        exact ih _ fr (processBatch_queue_mono (fetch n) n b st fr h)

lemma runBatches_spec (fetch : Nat → Except String (Option (List DFRow)))
    (cs : List Nat) :
    ∀ (numbered : List (Nat × List String)) (st : BulkState),
      ∀ p ∈ numbered, p.1 ∉ cs →
        (∃ cp ∈ (runBatches fetch cs numbered st).checkpoints, cp.batchNumber = p.1) ∧
        (fetch p.1 = Except.ok none ∨
            (∃ df, fetch p.1 = Except.ok (some df) ∧ df.isEmpty = true) →
          (∃ cp ∈ (runBatches fetch cs numbered st).checkpoints,
            cp.batchNumber = p.1 ∧ cp.status = .failed) ∧
          ∀ t ∈ p.2, ∃ fr ∈ (runBatches fetch cs numbered st).retryQueue,
            fr.ticker = t ∧ fr.batchNumber = p.1 ∧ fr.status = .pending) ∧
        (∀ e, fetch p.1 = Except.error e →
          ∃ cp ∈ (runBatches fetch cs numbered st).checkpoints,
            cp.batchNumber = p.1 ∧ cp.status = .failed ∧ cp.errorMessage = some e) := by
  intro numbered
  induction numbered with
  | nil => intro st p hp; exact absurd hp (List.not_mem_nil p)
  | cons hd rest ih =>
      intro st p hp hpc
      obtain ⟨n, b⟩ := hd
      rcases List.mem_cons.mp hp with rfl | htail
      · have hn : n ∉ cs := hpc
        simp only [runBatches, if_neg hn]
        refine ⟨?_, fun hnd => ⟨?_, fun t ht => ?_⟩, fun e herr => ?_⟩
        · obtain ⟨cp, he, hb⟩ := processBatch_checkpoints (fetch n) n b st
          refine ⟨cp, runBatches_checkpoints_mono fetch cs rest _ cp ?_, hb⟩
          rw [he]
          exact List.mem_append_right _ (List.mem_singleton.mpr rfl)
        · refine ⟨⟨n, b, .failed, some "No data returned from provider", 0⟩,
            runBatches_checkpoints_mono fetch cs rest _ _ ?_, rfl, rfl⟩
          unfold processBatch
          rcases hnd with hnone | ⟨df, hdf, hde⟩
          · rw [hnone]
            exact List.mem_append_right _ (List.mem_singleton.mpr rfl)
          · rw [hdf]
            dsimp only
            rw [if_pos hde]
            exact List.mem_append_right _ (List.mem_singleton.mpr rfl)
        · refine ⟨⟨t, n, "No data in batch response", 0, .pending⟩,
            runBatches_queue_mono fetch cs rest _ _ ?_, rfl, rfl, rfl⟩
          unfold processBatch
          rcases hnd with hnone | ⟨df, hdf, hde⟩
          · rw [hnone]
            unfold failBatch
            apply List.mem_append_right
            exact List.mem_map.mpr ⟨t, ht, rfl⟩
          · rw [hdf]
            dsimp only
            rw [if_pos hde]
            unfold failBatch
            apply List.mem_append_right
            exact List.mem_map.mpr ⟨t, ht, rfl⟩
        · refine ⟨⟨n, b, .failed, some e, 0⟩,
            runBatches_checkpoints_mono fetch cs rest _ _ ?_, rfl, rfl, rfl⟩
          unfold processBatch
          rw [herr]
          exact List.mem_append_right _ (List.mem_singleton.mpr rfl)
      · simp only [runBatches]
        by_cases hn : n ∈ cs
        · rw [if_pos hn]
          exact ih _ p htail hpc
        · rw [if_neg hn]
          exact ih _ p htail hpc

/-- C4: for every bulk-backfill batch not skipped by resume, an empty/`None`
provider result — `None` itself or a frame `df` with `df.empty`, the two
cases of `df is None or df.empty` — marks that batch's checkpoint `failed`
and enqueues every
ticker of the batch as `pending` in the retry queue; a per-batch exception
is caught and recorded in a `failed` checkpoint carrying its message; and in
every case — failures included — each such batch still receives a
checkpoint, so processing continues past failed batches.  The job itself is
a total function: it always returns a state with a statistics record (and
the zero statistics on an empty universe) and cannot raise. -/
theorem C4_bulk_job_never_aborts (tickers : List String) (resume : Bool)
    (fetch : Nat → Except String (Option (List DFRow))) (st0 : BulkState) :
    (tickers.isEmpty = true →
      populate_all_stocks tickers resume fetch st0 = { st0 with stats := BulkStats.init }) ∧
    (tickers.isEmpty = false →
      ∀ p ∈ (batchSlices 100 tickers).enum.map (fun q => (q.1 + 1, q.2)),
        p.1 ∉ (if resume then completedBatchNumbers st0.checkpoints else []) →
          (∃ cp ∈ (populate_all_stocks tickers resume fetch st0).checkpoints,
            cp.batchNumber = p.1) ∧
          (fetch p.1 = Except.ok none ∨
              (∃ df, fetch p.1 = Except.ok (some df) ∧ df.isEmpty = true) →
            (∃ cp ∈ (populate_all_stocks tickers resume fetch st0).checkpoints,
              cp.batchNumber = p.1 ∧ cp.status = .failed) ∧
            ∀ t ∈ p.2, ∃ fr ∈ (populate_all_stocks tickers resume fetch st0).retryQueue,
              fr.ticker = t ∧ fr.batchNumber = p.1 ∧ fr.status = .pending) ∧
          (∀ e, fetch p.1 = Except.error e →
            ∃ cp ∈ (populate_all_stocks tickers resume fetch st0).checkpoints,
              cp.batchNumber = p.1 ∧ cp.status = .failed ∧ cp.errorMessage = some e)) := by
  constructor
  · intro he
    unfold populate_all_stocks
    rw [if_pos he]
  · intro he p hp hpc
    unfold populate_all_stocks
    rw [if_neg (by rw [he]; exact Bool.false_ne_true)]
    exact runBatches_spec fetch _ _ _ p hp hpc

/-- Witness for C4 on a concrete 201-ticker universe where batch 1 returns
`None`, batch 2 returns an empty frame and batch 3 raises: batches 1 and 2
each get a failed checkpoint with their full ticker list enqueued as
`pending`, and batch 3 — still processed after the two no-data batches —
gets a failed checkpoint recording the exception message. -/
theorem C4_bulk_job_never_aborts_witness :
    tickersV.isEmpty = false ∧
      fetchW 1 = Except.ok none ∧
      ((∃ cp ∈ (populate_all_stocks tickersV true fetchW st0W).checkpoints,
          cp.batchNumber = 1 ∧ cp.status = .failed) ∧
        ∀ t ∈ (List.range 100).map (fun n => toString n),
          ∃ fr ∈ (populate_all_stocks tickersV true fetchW st0W).retryQueue,
            fr.ticker = t ∧ fr.batchNumber = 1 ∧ fr.status = .pending) ∧
      fetchW 2 = Except.ok (some []) ∧
      ((∃ cp ∈ (populate_all_stocks tickersV true fetchW st0W).checkpoints,
          cp.batchNumber = 2 ∧ cp.status = .failed) ∧
        ∀ t ∈ (List.range 100).map (fun n => toString (100 + n)),
          ∃ fr ∈ (populate_all_stocks tickersV true fetchW st0W).retryQueue,
            fr.ticker = t ∧ fr.batchNumber = 2 ∧ fr.status = .pending) ∧
      fetchW 3 = Except.error "boom" ∧
      ∃ cp ∈ (populate_all_stocks tickersV true fetchW st0W).checkpoints,
        cp.batchNumber = 3 ∧ cp.status = .failed ∧ cp.errorMessage = some "boom" := by
  refine ⟨by decide, rfl, ?_, rfl, ?_, rfl, ?_⟩
  · exact ((C4_bulk_job_never_aborts tickersV true fetchW st0W).2 (by decide)
      ((1 : Nat), (List.range 100).map fun n => toString n) (by decide) (by decide)).2.1
      (Or.inl rfl)
  · exact ((C4_bulk_job_never_aborts tickersV true fetchW st0W).2 (by decide)
      ((2 : Nat), (List.range 100).map fun n => toString (100 + n)) (by decide)
      (by decide)).2.1 (Or.inr ⟨[], rfl, rfl⟩)
  · exact ((C4_bulk_job_never_aborts tickersV true fetchW st0W).2 (by decide)
      ((3 : Nat), ["200"]) (by decide) (by decide)).2.2 "boom" rfl

/-! ## Upsert algebra (for the idempotence of the bulk insertion step) -/

lemma upsertRow_present (ps : List PriceRow) (r : PriceRow)
    (h : ∃ q ∈ ps, priceKey q = priceKey r) :
    upsertRow ps r = ps.map fun q => if priceKey q = priceKey r then r else q := by
  unfold upsertRow
  rw [if_pos]
  rw [List.any_eq_true]
  obtain ⟨q, hq, he⟩ := h
  exact ⟨q, hq, decide_eq_true he⟩

lemma upsertRow_absent (ps : List PriceRow) (r : PriceRow)
    (h : ∀ q ∈ ps, priceKey q ≠ priceKey r) :
    upsertRow ps r = ps ++ [r] := by
  unfold upsertRow
  rw [if_neg]
  intro hc
  rw [List.any_eq_true] at hc
  obtain ⟨q, hq, he⟩ := hc
  exact h q hq (of_decide_eq_true he)

lemma upsertRow_rows_sound (ps : List PriceRow) (r : PriceRow) :
    ∀ q ∈ upsertRow ps r, priceKey q = priceKey r → q = r := by
  intro q hq hk
  by_cases h : ∃ p ∈ ps, priceKey p = priceKey r
  · rw [upsertRow_present ps r h] at hq
    rw [List.mem_map] at hq
    obtain ⟨p, -, hp⟩ := hq
    by_cases hpk : priceKey p = priceKey r
    · rw [if_pos hpk] at hp
      exact hp.symm
    · rw [if_neg hpk] at hp
      rw [hp] at hpk
      exact absurd hk hpk
  · push_neg at h
    rw [upsertRow_absent ps r h] at hq
    rcases List.mem_append.mp hq with h2 | h2
    · exact absurd hk (h q h2)
    · exact List.mem_singleton.mp h2

lemma upsertRow_rows_present (ps : List PriceRow) (r : PriceRow) :
    ∃ q ∈ upsertRow ps r, priceKey q = priceKey r := by
  by_cases h : ∃ p ∈ ps, priceKey p = priceKey r
  · rw [upsertRow_present ps r h]
    obtain ⟨p, hp, hk⟩ := h
    refine ⟨r, List.mem_map.mpr ⟨p, hp, ?_⟩, rfl⟩
    rw [if_pos hk]
  · push_neg at h
    rw [upsertRow_absent ps r h]
    exact ⟨r, List.mem_append_right _ (List.mem_singleton.mpr rfl), rfl⟩

lemma upsertRow_stable (ps : List PriceRow) (r : PriceRow)
    (hall : ∀ q ∈ ps, priceKey q = priceKey r → q = r)
    (hpres : ∃ q ∈ ps, priceKey q = priceKey r) :
    upsertRow ps r = ps := by
  rw [upsertRow_present ps r hpres]
  have : ∀ q ∈ ps, (if priceKey q = priceKey r then r else q) = q := by
    intro q hq
    by_cases hk : priceKey q = priceKey r
    · rw [if_pos hk, hall q hq hk]
    · rw [if_neg hk]
  rw [List.map_congr_left this]
  simp

lemma upsertRow_preserves_sound (ps : List PriceRow) (s r : PriceRow)
    (hne : priceKey s ≠ priceKey r)
    (hall : ∀ q ∈ ps, priceKey q = priceKey r → q = r) :
    ∀ q ∈ upsertRow ps s, priceKey q = priceKey r → q = r := by
  intro q hq hk
  by_cases h : ∃ p ∈ ps, priceKey p = priceKey s
  · rw [upsertRow_present ps s h] at hq
    rw [List.mem_map] at hq
    obtain ⟨p, hp, hpe⟩ := hq
    by_cases hpk : priceKey p = priceKey s
    · rw [if_pos hpk] at hpe
      rw [← hpe] at hk
      exact absurd hk hne
    · rw [if_neg hpk] at hpe
      rw [← hpe]
      exact hall p hp (by rw [hpe]; exact hk)
  · push_neg at h
    rw [upsertRow_absent ps s h] at hq
    rcases List.mem_append.mp hq with h2 | h2
    · exact hall q h2 hk
    · rw [List.mem_singleton.mp h2] at hk
      exact absurd hk hne

lemma upsertRow_preserves_present (ps : List PriceRow) (s r : PriceRow)
    (hpres : ∃ q ∈ ps, priceKey q = priceKey r) :
    ∃ q ∈ upsertRow ps s, priceKey q = priceKey r := by
  obtain ⟨q, hq, hk⟩ := hpres
  by_cases h : ∃ p ∈ ps, priceKey p = priceKey s
  · rw [upsertRow_present ps s h]
    by_cases hqs : priceKey q = priceKey s
    · refine ⟨s, List.mem_map.mpr ⟨q, hq, by rw [if_pos hqs]⟩, ?_⟩
      rw [← hqs]
      exact hk
    · exact ⟨q, List.mem_map.mpr ⟨q, hq, by rw [if_neg hqs]⟩, hk⟩
  · push_neg at h
    rw [upsertRow_absent ps s h]
    exact ⟨q, List.mem_append_left _ hq, hk⟩

lemma upsertRows_preserves (ps : List PriceRow) (r : PriceRow) :
    ∀ (rows : List PriceRow), priceKey r ∉ rows.map priceKey →
      (∀ q ∈ ps, priceKey q = priceKey r → q = r) →
      (∃ q ∈ ps, priceKey q = priceKey r) →
      (∀ q ∈ upsertRows ps rows, priceKey q = priceKey r → q = r) ∧
        (∃ q ∈ upsertRows ps rows, priceKey q = priceKey r) := by
  intro rows
  induction rows generalizing ps with
  | nil => intro _ hall hpres; exact ⟨hall, hpres⟩
  | cons s rest ih =>
      intro hnot hall hpres
      have hne : priceKey s ≠ priceKey r := by
        intro hc
        exact hnot (by rw [← hc]; exact List.mem_map_of_mem priceKey (List.mem_cons_self s rest))
      have hnot2 : priceKey r ∉ rest.map priceKey := by
        intro hc
        exact hnot (List.mem_cons_of_mem _ hc)
      exact ih (upsertRow ps s) hnot2
        (upsertRow_preserves_sound ps s r hne hall)
        (upsertRow_preserves_present ps s r hpres)

lemma upsertRows_twice (rows : List PriceRow) :
    ∀ ps : List PriceRow, (rows.map priceKey).Nodup →
      upsertRows (upsertRows ps rows) rows = upsertRows ps rows := by
  induction rows with
  | nil => intro ps _; rfl
  | cons r rest ih =>
      intro ps hnd
      have hnd2 : (rest.map priceKey).Nodup := (List.nodup_cons.mp hnd).2
      have hnotin : priceKey r ∉ rest.map priceKey := (List.nodup_cons.mp hnd).1
      have hB := upsertRows_preserves (upsertRow ps r) r rest hnotin
        (upsertRow_rows_sound ps r) (upsertRow_rows_present ps r)
      have hstep : upsertRows ps (r :: rest) = upsertRows (upsertRow ps r) rest := rfl
      rw [hstep]
      have hfix : upsertRow (upsertRows (upsertRow ps r) rest) r
          = upsertRows (upsertRow ps r) rest :=
        upsertRow_stable _ r hB.1 hB.2
      show upsertRows (upsertRow (upsertRows (upsertRow ps r) rest) r) rest
        = upsertRows (upsertRow ps r) rest
      rw [hfix]
      exact ih (upsertRow ps r) hnd2

lemma upsertRow_keys (ps : List PriceRow) (r : PriceRow) :
    (upsertRow ps r).map priceKey = ps.map priceKey
      ∨ ((upsertRow ps r).map priceKey = ps.map priceKey ++ [priceKey r]
          ∧ priceKey r ∉ ps.map priceKey) := by
  by_cases h : ∃ p ∈ ps, priceKey p = priceKey r
  · left
    rw [upsertRow_present ps r h, List.map_map]
    apply List.map_congr_left
    intro q _
    show priceKey (if priceKey q = priceKey r then r else q) = priceKey q
    by_cases hk : priceKey q = priceKey r
    · rw [if_pos hk, hk]
    · rw [if_neg hk]
  · push_neg at h
    right
    rw [upsertRow_absent ps r h, List.map_append]
    refine ⟨rfl, ?_⟩
    intro hc
    rw [List.mem_map] at hc
    obtain ⟨q, hq, hk⟩ := hc
    exact h q hq hk

lemma upsertRow_keys_nodup (ps : List PriceRow) (r : PriceRow)
    (h : (ps.map priceKey).Nodup) : ((upsertRow ps r).map priceKey).Nodup := by
  rcases upsertRow_keys ps r with he | ⟨he, hn⟩
  · rw [he]; exact h
  · rw [he]
    rw [List.nodup_append]
    exact ⟨h, List.nodup_singleton _, by simpa using hn⟩

lemma upsertRows_keys_nodup (rows : List PriceRow) :
    ∀ ps : List PriceRow, (ps.map priceKey).Nodup →
      ((upsertRows ps rows).map priceKey).Nodup := by
  induction rows with
  | nil => intro ps h; exact h
  | cons r rest ih =>
      intro ps h
      exact ih (upsertRow ps r) (upsertRow_keys_nodup ps r h)

lemma lookup_append_isSome (t : TickerTable) (l : List (Nat × String)) (m : Nat)
    (s : String) (h : (t.lookup s).isSome) :
    ((TickerTable.mk (t.rows ++ l) m).lookup s).isSome := by
  unfold TickerTable.lookup at *
  rw [List.find?_append]
  rcases hf : t.rows.find? fun p => p.2 == s with - | v
  · rw [hf] at h
    exact absurd h (by simp)
  · rw [hf]
    simp

lemma createMissing_cons (t : TickerTable) (a : String) (rest : List String) :
    t.createMissing (a :: rest)
      = (if (t.lookup a).isSome then t
         else TickerTable.mk (t.rows ++ [(t.nextId, a)]) (t.nextId + 1)).createMissing rest := by
  unfold TickerTable.createMissing
  rw [List.foldl_cons]

lemma createMissing_lookup_mono (syms : List String) :
    ∀ (t : TickerTable) (s : String), (t.lookup s).isSome →
      ((t.createMissing syms).lookup s).isSome := by
  induction syms with
  | nil => intro t s h; exact h
  | cons a rest ih =>
      intro t s h
      rw [createMissing_cons]
      by_cases ha : (t.lookup a).isSome
      · rw [if_pos ha]
        exact ih t s h
      · rw [if_neg ha]
        exact ih _ s (lookup_append_isSome t _ _ s h)

lemma createMissing_covers (syms : List String) :
    ∀ (t : TickerTable), ∀ s ∈ syms, ((t.createMissing syms).lookup s).isSome := by
  induction syms with
  | nil => intro t s hs; exact absurd hs (List.not_mem_nil s)
  | cons a rest ih =>
      intro t s hs
      rw [createMissing_cons]
      by_cases ha : (t.lookup a).isSome
      · rw [if_pos ha]
        rcases List.mem_cons.mp hs with rfl | hrest
        · exact createMissing_lookup_mono rest t s ha
        · exact ih t s hrest
      · rw [if_neg ha]
        rcases List.mem_cons.mp hs with rfl | hrest
        · apply createMissing_lookup_mono
          unfold TickerTable.lookup at ha ⊢
          rw [List.find?_append]
          rcases hf : t.rows.find? fun p => p.2 == s with - | v
          · simp only [hf, Option.none_or]
            simp [List.find?]
          · rw [hf] at ha
            exact absurd (by simp) ha
        · exact ih _ s hrest

lemma createMissing_of_covered (syms : List String) :
    ∀ (t : TickerTable), (∀ s ∈ syms, (t.lookup s).isSome) →
      t.createMissing syms = t := by
  induction syms with
  | nil => intro t _; rfl
  | cons a rest ih =>
      intro t hall
      have ha := hall a (List.mem_cons_self a rest)
      rw [createMissing_cons, if_pos ha]
      exact ih t fun s hs => hall s (List.mem_cons_of_mem a hs)

lemma createMissing_WF (syms : List String) :
    ∀ (t : TickerTable), TickerWF t → TickerWF (t.createMissing syms) := by
  induction syms with
  | nil => intro t h; exact h
  | cons a rest ih =>
      intro t h
      rw [createMissing_cons]
      by_cases ha : (t.lookup a).isSome
      · rw [if_pos ha]
        exact ih t h
      · rw [if_neg ha]
        apply ih
        obtain ⟨hnd, hlt⟩ := h
        constructor
        · rw [List.map_append, List.nodup_append]
          refine ⟨hnd, List.nodup_singleton _, ?_⟩
          intro i hi
          simp only [List.map_cons, List.map_nil, List.mem_singleton]
          intro hc
          rw [List.mem_map] at hi
          obtain ⟨p, hp, hpe⟩ := hi
          have := hlt p hp
          omega
        · intro p hp
          rcases List.mem_append.mp hp with h2 | h2
          · have := hlt p h2
            show p.1 < t.nextId + 1
            omega
          · rw [List.mem_singleton.mp h2]
            show t.nextId < t.nextId + 1
            omega

lemma lookup_decode (t : TickerTable) (s : String) (i : Nat)
    (h : t.lookup s = some i) : ∃ p ∈ t.rows, p.1 = i ∧ p.2 = s := by
  unfold TickerTable.lookup at h
  rw [Option.map_eq_some'] at h
  obtain ⟨p, hp, hp1⟩ := h
  refine ⟨p, List.mem_of_find?_eq_some hp, hp1, ?_⟩
  have := List.find?_some hp
  exact eq_of_beq this

lemma lookup_inj (t : TickerTable) (hids : (t.rows.map Prod.fst).Nodup)
    (s1 s2 : String) (i : Nat) (h1 : t.lookup s1 = some i)
    (h2 : t.lookup s2 = some i) : s1 = s2 := by
  obtain ⟨p1, hm1, he1, hs1⟩ := lookup_decode t s1 i h1
  obtain ⟨p2, hm2, he2, hs2⟩ := lookup_decode t s2 i h2
  have : p1 = p2 := List.inj_on_of_nodup_map hids hm1 hm2 (by rw [he1, he2])
  rw [← hs1, ← hs2, this]

lemma rowsToUpsert_mem_decode (t : TickerTable) (df : List DFRow) (q : PriceRow)
    (h : q ∈ rowsToUpsert t df) :
    ∃ r ∈ df, t.lookup r.ticker = some q.tickerId ∧ q.date = r.date := by
  unfold rowsToUpsert at h
  rw [List.mem_filterMap] at h
  obtain ⟨a, ha, hae⟩ := h
  cases hl : t.lookup a.ticker with
  | none => rw [hl] at hae; exact absurd hae (by simp)
  | some tid =>
      rw [hl] at hae
      dsimp only at hae
      by_cases h0 : tid = 0
      · rw [if_pos h0] at hae
        exact absurd hae (by simp)
      · rw [if_neg h0] at hae
        obtain rfl := Option.some_injective _ hae
        exact ⟨a, ha, hl, rfl⟩

lemma rowsToUpsert_keys_nodup (t : TickerTable) (hids : (t.rows.map Prod.fst).Nodup) :
    ∀ df : List DFRow, (df.map fun r => (r.ticker, r.date)).Nodup →
      ((rowsToUpsert t df).map priceKey).Nodup := by
  intro df
  induction df with
  | nil => intro _; exact List.nodup_nil
  | cons r rest ih =>
      intro hdf
      rw [List.map_cons, List.nodup_cons] at hdf
      obtain ⟨hnotin, hrest⟩ := hdf
      show ((List.filterMap _ (r :: rest)).map priceKey).Nodup
      rw [List.filterMap_cons]
      cases hl : t.lookup r.ticker with
      | none => exact ih hrest
      | some tid =>
          dsimp only
          by_cases h0 : tid = 0
          · rw [if_pos h0]
            exact ih hrest
          · rw [if_neg h0]
            rw [List.map_cons, List.nodup_cons]
            refine ⟨?_, ih hrest⟩
            intro hc
            rw [List.mem_map] at hc
            obtain ⟨q, hq, hqk⟩ := hc
            obtain ⟨r2, hr2, hl2, hd2⟩ := rowsToUpsert_mem_decode t rest q hq
            have hk1 : q.tickerId = tid := by
              have := congrArg Prod.fst hqk
              exact this
            have hk2 : q.date = r.date := by
              have := congrArg Prod.snd hqk
              exact this
            rw [hk1] at hl2
            have hts : r2.ticker = r.ticker := lookup_inj t hids r2.ticker r.ticker tid hl2 hl
            apply hnotin
            rw [List.mem_map]
            exact ⟨r2, hr2, by rw [hts, ← hd2, hk2]⟩

/-- C6: running the bulk backfill's set-based insertion step twice on the
same input rows leaves the price table (and the whole state, row count
included) exactly as after a single run, and the resulting price table has
exactly one row per (ticker, date) composite key — the second run overwrites
instead of duplicating.  The hypotheses are the schema invariants of the
store: distinct ticker primary keys below the autoincrement counter,
distinct composite keys in the price table, and distinct (ticker, date)
keys in the input batch (Postgres rejects a single `ON CONFLICT DO UPDATE`
statement whose VALUES list repeats a key). -/
theorem C6_bulk_insertion_idempotent (db : PriceDB) (df : List DFRow)
    (hids : (db.tickers.rows.map Prod.fst).Nodup)
    (hlt : ∀ p ∈ db.tickers.rows, p.1 < db.tickers.nextId)
    (hkeys : (db.prices.map priceKey).Nodup)
    (hdf : (df.map fun r => (r.ticker, r.date)).Nodup) :
    insert_batch_data (insert_batch_data db df).1 df = insert_batch_data db df ∧
      (((insert_batch_data db df).1.prices.map priceKey).Nodup) := by
  have hwf1 : TickerWF (db.tickers.createMissing ((df.map fun r => r.ticker).eraseDups)) :=
    createMissing_WF _ db.tickers ⟨hids, hlt⟩
  have hcov : ∀ s ∈ (df.map fun r => r.ticker).eraseDups,
      (((db.tickers.createMissing ((df.map fun r => r.ticker).eraseDups))).lookup s).isSome :=
    createMissing_covers _ db.tickers
  have hsame : (db.tickers.createMissing ((df.map fun r => r.ticker).eraseDups)).createMissing
      ((df.map fun r => r.ticker).eraseDups)
      = db.tickers.createMissing ((df.map fun r => r.ticker).eraseDups) :=
    createMissing_of_covered _ _ hcov
  have hrnd : ((rowsToUpsert (db.tickers.createMissing ((df.map fun r => r.ticker).eraseDups))
      df).map priceKey).Nodup :=
    rowsToUpsert_keys_nodup _ hwf1.1 df hdf
  constructor
  · show ((⟨(db.tickers.createMissing ((df.map fun r => r.ticker).eraseDups)).createMissing
        ((df.map fun r => r.ticker).eraseDups),
      upsertRows
        (upsertRows db.prices
          (rowsToUpsert (db.tickers.createMissing ((df.map fun r => r.ticker).eraseDups)) df))
        (rowsToUpsert ((db.tickers.createMissing ((df.map fun r => r.ticker).eraseDups)).createMissing
          ((df.map fun r => r.ticker).eraseDups)) df)⟩ : PriceDB),
      (rowsToUpsert ((db.tickers.createMissing ((df.map fun r => r.ticker).eraseDups)).createMissing
        ((df.map fun r => r.ticker).eraseDups)) df).length)
      = ((⟨db.tickers.createMissing ((df.map fun r => r.ticker).eraseDups),
          upsertRows db.prices
            (rowsToUpsert (db.tickers.createMissing ((df.map fun r => r.ticker).eraseDups)) df)⟩ : PriceDB),
        (rowsToUpsert (db.tickers.createMissing ((df.map fun r => r.ticker).eraseDups)) df).length)
    rw [hsame]
    rw [upsertRows_twice _ _ hrnd]
  · show ((upsertRows db.prices
      (rowsToUpsert (db.tickers.createMissing ((df.map fun r => r.ticker).eraseDups)) df)).map
        priceKey).Nodup
    exact upsertRows_keys_nodup _ db.prices hkeys

/-- Witness for C6 on a two-row batch over a one-ticker store, creating one
missing ticker. -/
theorem C6_bulk_insertion_idempotent_witness :
    ((([(1, "AAPL")] : List (Nat × String)).map Prod.fst).Nodup ∧
      (∀ p ∈ ([(1, "AAPL")] : List (Nat × String)), p.1 < 2) ∧
      (([] : List PriceRow).map priceKey).Nodup ∧
      (([⟨"AAPL", ⟨2024, 7, 1⟩, none, none, none, 10, 1⟩,
         ⟨"MSFT", ⟨2024, 7, 1⟩, none, none, none, 20, 2⟩] : List DFRow).map
          fun r => (r.ticker, r.date)).Nodup) ∧
      insert_batch_data
        (insert_batch_data (PriceDB.mk ⟨[(1, "AAPL")], 2⟩ [])
          [⟨"AAPL", ⟨2024, 7, 1⟩, none, none, none, 10, 1⟩,
           ⟨"MSFT", ⟨2024, 7, 1⟩, none, none, none, 20, 2⟩]).1
        [⟨"AAPL", ⟨2024, 7, 1⟩, none, none, none, 10, 1⟩,
         ⟨"MSFT", ⟨2024, 7, 1⟩, none, none, none, 20, 2⟩]
        = insert_batch_data (PriceDB.mk ⟨[(1, "AAPL")], 2⟩ [])
          [⟨"AAPL", ⟨2024, 7, 1⟩, none, none, none, 10, 1⟩,
           ⟨"MSFT", ⟨2024, 7, 1⟩, none, none, none, 20, 2⟩] ∧
      (((insert_batch_data (PriceDB.mk ⟨[(1, "AAPL")], 2⟩ [])
          [⟨"AAPL", ⟨2024, 7, 1⟩, none, none, none, 10, 1⟩,
           ⟨"MSFT", ⟨2024, 7, 1⟩, none, none, none, 20, 2⟩]).1.prices.map priceKey).Nodup) := by
  refine ⟨⟨by decide, by decide, by decide, by decide⟩, ?_, ?_⟩
  · exact (C6_bulk_insertion_idempotent (PriceDB.mk ⟨[(1, "AAPL")], 2⟩ [])
      [⟨"AAPL", ⟨2024, 7, 1⟩, none, none, none, 10, 1⟩,
       ⟨"MSFT", ⟨2024, 7, 1⟩, none, none, none, 20, 2⟩]
      (by decide) (by decide) (by decide) (by decide)).1
  · exact (C6_bulk_insertion_idempotent (PriceDB.mk ⟨[(1, "AAPL")], 2⟩ [])
      [⟨"AAPL", ⟨2024, 7, 1⟩, none, none, none, 10, 1⟩,
       ⟨"MSFT", ⟨2024, 7, 1⟩, none, none, none, 20, 2⟩]
      (by decide) (by decide) (by decide) (by decide)).2

end StockScreener
